import Mathlib

/-!
# SplicedMemory and CoreProcess (delve `pkg/proc/core.go`)

A shallow embedding of the core-file backend: the address-space overlay
(`SplicedMemory.Add`, `SplicedMemory.ReadMemory`) and the frozen debugging
target (`CoreProcess`, `CoreThread`); and of `minUpdate` of
`nvim-go/commands/fmt.go`.

Conventions of the embedding:

* `uintptr` is a natural number below `W = 2 ^ 64`; every `uintptr` operation of
  the source is written with an explicit reduction modulo `W`
  (`uadd`, `usub`).
* `int` is an integer in `[-2 ^ 63, 2 ^ 63)`; the one `int` addition of the
  source (`n += pn`) is wrapped by `wrapInt`.
* a `[]byte` buffer is the list of its bytes; a callee that writes into the
  buffer returns its new contents.
* `MemoryReader` is an interface; a reader is the function its `ReadMemory`
  method computes.
* `panic` is the result `none`.
-/

namespace proc

/-- Modulus of `uintptr` arithmetic (amd64). -/
def W : Nat := 18446744073709551616

/-- Addition of two `uintptr` values. -/
def uadd (a b : Nat) : Nat := (a + b) % W

/-- Subtraction of two `uintptr` values. -/
def usub (a b : Nat) : Nat := (a + (W - b % W)) % W

/-- Two-complement wrap-around of an `int` (64 bit). -/
def wrapInt (x : Int) : Int := (x + 9223372036854775808) % 18446744073709551616 - 9223372036854775808

abbrev Byte := UInt8

/-- The `error` values that `core.go` creates, and the errors of the readers that
`SplicedMemory.ReadMemory` delegates to. -/
inductive Error where
  /-- `fmt.Errorf("hit unmapped area at %v after %v bytes", addr, n)` -/
  | hitUnmapped (addr : Nat) (n : Int)
  /-- `fmt.Errorf("offset %v did not match any regions", addr)` -/
  | noMatch (addr : Nat)
  /-- an error created by an underlying reader -/
  | readerError (msg : String)
  /-- `var ErrWriteCore = errors.New("can not to core process")` -/
  | ErrWriteCore
  /-- `var ErrShortRead = errors.New("short read")` -/
  | ErrShortRead
  /-- `var ErrContinueCore = errors.New("can not continue execution of core process")` -/
  | ErrContinueCore
  /-- `NoBreakpointError{addr: addr}` -/
  | NoBreakpointError (addr : Nat)
  /-- `fmt.Errorf("thread %d does not exist", tid)` -/
  | threadDoesNotExist (tid : Int)
  deriving DecidableEq

/-- Result of a `ReadMemory(buf, addr) (n int, err error)` call: the two results
and the bytes the callee stored into the buffer. -/
structure ReadResult where
  n : Int
  err : Option Error
  data : List Byte
  deriving DecidableEq

/-- The `MemoryReader` interface: `ReadMemory(buf []byte, addr uintptr) (n int, err error)`.
The argument list is the contents of `buf` at the call. -/
structure MemoryReader where
  ReadMemory : List Byte → Nat → ReadResult

/-- Contents of the slice `pb` after a callee stored `data` into it: a callee
overwrites bytes of the slice it was handed, it cannot change its length. -/
def store (pb data : List Byte) : List Byte :=
  (data ++ pb.drop data.length).take pb.length

structure readerEntry where
  offset : Nat
  length : Nat
  reader : MemoryReader

structure SplicedMemory where
  readers : List readerEntry

/-- The closure `add` of `SplicedMemory.Add`: append `e` to `newReaders` unless
its length is 0. -/
def add (newReaders : List readerEntry) (e : readerEntry) : List readerEntry :=
  if e.length = 0 then newReaders else newReaders ++ [e]

/-- The `for _, entry := range r.readers` loop of `SplicedMemory.Add`; the state
is `(newReaders, inserted)`, `none` is the `panic` of the `default` case. -/
def AddLoop (reader : MemoryReader) (off length : Nat) :
    List readerEntry → List readerEntry → Bool → Option (List readerEntry × Bool)
  | [], newReaders, inserted => some (newReaders, inserted)
  | entry :: rest, newReaders, inserted =>
    let end_ := usub (uadd off length) 1
    let entryEnd := usub (uadd entry.offset entry.length) 1
    if entryEnd < off then
      -- Entry is completely before the new region.
      AddLoop reader off length rest (add newReaders entry) inserted
    else if end_ < entry.offset then
      -- Entry is completely after the new region.
      let newReaders1 := if !inserted then add newReaders ⟨off, length, reader⟩ else newReaders
      AddLoop reader off length rest (add newReaders1 entry) true
    else if off ≤ entry.offset ∧ entryEnd ≤ end_ then
      -- Entry is completely overwritten by the new region. Drop.
      AddLoop reader off length rest newReaders inserted
    else if entry.offset < off ∧ entryEnd ≤ end_ then
      -- New region overwrites the end of the entry.
      AddLoop reader off length rest
        (add newReaders ⟨entry.offset, usub off entry.offset, entry.reader⟩) inserted
    else if off ≤ entry.offset ∧ end_ < entryEnd then
      -- New reader overwrites the beginning of the entry.
      let newReaders1 := if !inserted then add newReaders ⟨off, length, reader⟩ else newReaders
      let overlap := usub entry.offset off
      AddLoop reader off length rest
        (add newReaders1 ⟨uadd entry.offset overlap, usub entry.length overlap, entry.reader⟩) true
    else if entry.offset < off ∧ end_ < entryEnd then
      -- New region punches a hole in the entry.
      let newReaders1 := add newReaders ⟨entry.offset, usub off entry.offset, entry.reader⟩
      let newReaders2 := add newReaders1 ⟨off, length, reader⟩
      let newReaders3 := add newReaders2 ⟨uadd end_ 1, usub entryEnd end_, entry.reader⟩
      AddLoop reader off length rest newReaders3 true
    else
      none

/-- `func (r *SplicedMemory) Add(reader MemoryReader, off, length uintptr)`. -/
def SplicedMemory.Add (r : SplicedMemory) (reader : MemoryReader) (off length : Nat) :
    Option SplicedMemory :=
  if length = 0 then some r
  else
    match AddLoop reader off length r.readers [] false with
    | none => none
    | some (newReaders, inserted) =>
      some ⟨if !inserted then newReaders ++ [⟨off, length, reader⟩] else newReaders⟩

/-- The loop of `SplicedMemory.ReadMemory`. `done` is the part of the caller's
buffer that `buf = buf[pn:]` has already stepped over, `buf` the rest of it;
`started`, `addr` and `n` are the variables of the source. -/
def ReadLoop (started : Bool) :
    List readerEntry → List Byte → List Byte → Nat → Int → ReadResult
  | [], done, buf, addr, n =>
    if n = 0 then ⟨0, some (Error.noMatch addr), done ++ buf⟩
    else ⟨n, none, done ++ buf⟩
  | entry :: rest, done, buf, addr, n =>
    if uadd entry.offset entry.length < addr then
      if !started then ReadLoop started rest done buf addr n
      else ⟨n, some (Error.hitUnmapped addr n), done ++ buf⟩
    else
      -- Don't go past the region.
      let pb := if uadd addr buf.length > uadd entry.offset entry.length
        then buf.take (usub (uadd entry.offset entry.length) addr) else buf
      let res := entry.reader.ReadMemory pb addr
      let n1 := wrapInt (n + res.n)
      if res.err ≠ none ∨ res.n ≠ pb.length then
        ⟨n1, res.err, done ++ store pb res.data ++ buf.drop pb.length⟩
      else
        let buf1 := buf.drop pb.length
        let addr1 := uadd addr pb.length
        if buf1.length = 0 then
          -- Done, don't bother scanning the rest.
          ⟨n1, none, done ++ store pb res.data ++ buf1⟩
        else ReadLoop started rest (done ++ store pb res.data) buf1 addr1 n1

/-- `func (r *SplicedMemory) ReadMemory(buf []byte, addr uintptr) (n int, err error)`.
The local `started` is initialised to `false` and never assigned. -/
def SplicedMemory.ReadMemory (r : SplicedMemory) (buf : List Byte) (addr : Nat) : ReadResult :=
  ReadLoop false r.readers [] buf addr 0

/-- A `SplicedMemory` with no region. -/
def SplicedMemory.empty : SplicedMemory := ⟨[]⟩

/-- A sequence of `Add(reader, off, length)` calls, in order. -/
def SplicedMemory.AddAll : SplicedMemory → List (MemoryReader × Nat × Nat) → Option SplicedMemory
  | r, [] => some r
  | r, (reader, off, length) :: calls =>
    match r.Add reader off length with
    | none => none
    | some r1 => SplicedMemory.AddAll r1 calls

/-- A reader backed by a memory image `m`: it fills the whole buffer with the
bytes of `m` at `addr`, `addr + 1`, ... and reports a full read. -/
def imageReader (m : Nat → Byte) : MemoryReader :=
  ⟨fun buf addr => ⟨buf.length, none, (List.range buf.length).map (fun i => m (uadd addr i))⟩⟩

/-- A reader always fills the buffer it is given: it reports `len(buf)` bytes,
no error, and stores exactly `len(buf)` bytes. -/
def Fills (rd : MemoryReader) : Prop :=
  ∀ buf addr, (rd.ReadMemory buf addr).n = buf.length ∧ (rd.ReadMemory buf addr).err = none

/-- Consecutive regions are sorted by offset and do not overlap: for consecutive
`r`, `s` of the list, `r.offset + r.length ≤ s.offset`. -/
def Sorted : List readerEntry → Prop
  | [] => True
  | [_] => True
  | r :: s :: rest => r.offset + r.length ≤ s.offset ∧ Sorted (s :: rest)

/-- `Sorted` is decidable. -/
def Sorted.dec : (l : List readerEntry) → Decidable (Sorted l)
  | [] => isTrue trivial
  | [_] => isTrue trivial
  | r :: s :: rest =>
    @instDecidableAnd (r.offset + r.length ≤ s.offset) (Sorted (s :: rest))
      (Nat.decLe _ _) (Sorted.dec (s :: rest))

instance (l : List readerEntry) : Decidable (Sorted l) := Sorted.dec l

/-- A reader over the image whose byte at address `a` is `a mod 256`. -/
def readerA : MemoryReader := imageReader (fun a => UInt8.ofNat a)

/-- A reader over the image whose byte at address `a` is `(a + 100) mod 256`. -/
def readerB : MemoryReader := imageReader (fun a => UInt8.ofNat (a + 100))

/-- A reader over the image whose byte at address `a` is `(a + 200) mod 256`. -/
def readerC : MemoryReader := imageReader (fun a => UInt8.ofNat (a + 200))

/-- A reader over the image whose byte at address `a` is `(a + 50) mod 256`. -/
def readerD : MemoryReader := imageReader (fun a => UInt8.ofNat (a + 50))

/-- Reader `rd` supplies the bytes of the image `m`: it fills every buffer with
the bytes of `m` at `addr`, `addr + 1`, ... and reports a full read. -/
def Supplies (rd : MemoryReader) (m : Nat → Byte) : Prop :=
  ∀ buf addr, rd.ReadMemory buf addr
    = ⟨buf.length, none, (List.range buf.length).map (fun i => m (uadd addr i))⟩

/-- Consecutive regions abut: each region starts where the one before it ends. -/
def Abutting : List readerEntry → Prop
  | [] => True
  | [_] => True
  | r :: s :: rest => r.offset + r.length = s.offset ∧ Abutting (s :: rest)

/-- `Abutting` is decidable. -/
def Abutting.dec : (l : List readerEntry) → Decidable (Abutting l)
  | [] => isTrue trivial
  | [_] => isTrue trivial
  | r :: s :: rest =>
    @instDecidableAnd (r.offset + r.length = s.offset) (Abutting (s :: rest))
      (Nat.decEq _ _) (Abutting.dec (s :: rest))

instance (l : List readerEntry) : Decidable (Abutting l) := Abutting.dec l

/-- End address (`offset + length`) of the last region of the run `f :: tl`. -/
def runEnd (f : readerEntry) : List readerEntry → Nat
  | [] => f.offset + f.length
  | g :: tl => runEnd g tl

/-- The images of the example regions: the region at offset 0 is read through
`readerA`, the region at offset 10 through `readerB`, every other region
through `readerC`. -/
def exampleImg (e : readerEntry) : Nat → Byte :=
  if e.offset = 0 then fun a => UInt8.ofNat a
  else if e.offset = 10 then fun a => UInt8.ofNat (a + 100)
  else fun a => UInt8.ofNat (a + 200)

/-! ## CoreProcess and CoreThread

The types `LinuxPrStatus`, `G`, `IThread`, `BinaryInfo`, `Breakpoint` and `Core`
are declared in other files of package `proc`; they are modelled by the parts
that `core.go` uses. A pointer that may be nil is an `Option`, a Go map is the
function of its lookup (`none` for an absent key), and a method with a pointer
receiver returns the receiver after the call next to its results. The helpers
`GetG` and `FindGoroutine` of package `proc` are parameters of the methods that
call them. -/

/-- Modelled from the spec: `LinuxPrStatus`, the per-thread register and status
snapshot of a core file; `Pid` is the thread id, `Rip` stands for the saved
registers. -/
structure LinuxPrStatus where
  Pid : Int
  Rip : Nat
  deriving DecidableEq

/-- Modelled from the spec: the interface `IThread`, by the one method that
`core.go` calls on a value of this type, `ThreadID()`. -/
structure IThread where
  ThreadID : Int
  deriving DecidableEq

/-- Modelled from the spec: `G`, a goroutine (lightweight task) of the target;
`thread` is the thread it is bound to, nil when it is not running. -/
structure G where
  ID : Int
  thread : Option IThread
  deriving DecidableEq

/-- Modelled from the spec: `BinaryInfo`, symbol and architecture metadata of the
executable. -/
structure BinaryInfo where
  goos : String
  goarch : String
  gStructOffset : Nat
  deriving DecidableEq

/-- Modelled from the spec: `Breakpoint`, `{address, kind, condition}`. -/
structure Breakpoint where
  Addr : Nat
  Kind : Nat
  Cond : String
  deriving DecidableEq

/-- Modelled from the spec: `Core`, the parsed dump: its memory reader, the map
from thread id to thread snapshot, and the pid. -/
structure Core where
  mem : MemoryReader
  Threads : Int → Option LinuxPrStatus
  Pid : Int

structure CoreProcess where
  bi : BinaryInfo
  core : Core
  breakpoints : Nat → Option Breakpoint
  currentThread : Option LinuxPrStatus
  selectedGoroutine : Option G
  allGCache : List G

structure CoreThread where
  th : Option LinuxPrStatus
  p : CoreProcess

/-- `make(map[uint64]*Breakpoint)`: the map with no key. -/
def noBreakpoints : Nat → Option Breakpoint := fun _ => none

/-- `func (thread *CoreThread) ReadMemory(data []byte, addr uintptr) (n int, err error)`. -/
def CoreThread.ReadMemory (thread : CoreThread) (data : List Byte) (addr : Nat) : ReadResult :=
  let res := thread.p.core.mem.ReadMemory data addr
  if res.err = none ∧ res.n ≠ data.length then ⟨res.n, some Error.ErrShortRead, res.data⟩
  else ⟨res.n, res.err, res.data⟩

/-- `func (thread *CoreThread) writeMemory(addr uintptr, data []byte) (int, error)`. -/
def CoreThread.writeMemory (thread : CoreThread) (_addr : Nat) (_data : List Byte) :
    (Int × Option Error) × CoreThread :=
  ((0, some Error.ErrWriteCore), thread)

/-- `func (t *CoreThread) ThreadID() int`; nil snapshot: the dereference faults. -/
def CoreThread.ThreadID (t : CoreThread) : Option Int :=
  t.th.map (fun th => th.Pid)

/-- `func (t *CoreThread) StepInstruction() error`. -/
def CoreThread.StepInstruction (t : CoreThread) : Option Error × CoreThread :=
  (some Error.ErrContinueCore, t)

/-- `func (p *CoreProcess) Breakpoints() map[uint64]*Breakpoint`. -/
def CoreProcess.Breakpoints (p : CoreProcess) : Nat → Option Breakpoint :=
  p.breakpoints

/-- `func (p *CoreProcess) ClearBreakpoint(addr uint64) (*Breakpoint, error)`. -/
def CoreProcess.ClearBreakpoint (p : CoreProcess) (addr : Nat) :
    (Option Breakpoint × Option Error) × CoreProcess :=
  ((none, some (Error.NoBreakpointError addr)), p)

/-- `func (p *CoreProcess) ClearInternalBreakpoints() error`. -/
def CoreProcess.ClearInternalBreakpoints (p : CoreProcess) : Option Error × CoreProcess :=
  (none, p)

/-- `func (p *CoreProcess) ContinueOnce() (IThread, error)`. -/
def CoreProcess.ContinueOnce (p : CoreProcess) : (Option IThread × Option Error) × CoreProcess :=
  ((none, some Error.ErrContinueCore), p)

/-- `func (p *CoreProcess) StepInstruction() error`. -/
def CoreProcess.StepInstruction (p : CoreProcess) : Option Error × CoreProcess :=
  (some Error.ErrContinueCore, p)

/-- `func (p *CoreProcess) RequestManualStop() error`. -/
def CoreProcess.RequestManualStop (p : CoreProcess) : Option Error × CoreProcess :=
  (none, p)

/-- `func (p *CoreProcess) CurrentThread() IThread`. -/
def CoreProcess.CurrentThread (p : CoreProcess) : CoreThread :=
  ⟨p.currentThread, p⟩

/-- `func (p *CoreProcess) Detach(bool) error`. -/
def CoreProcess.Detach (p : CoreProcess) (_kill : Bool) : Option Error × CoreProcess :=
  (none, p)

/-- `func (p *CoreProcess) Exited() bool`. -/
def CoreProcess.Exited (_p : CoreProcess) : Bool := false

/-- `func (p *CoreProcess) Halt() error`. -/
def CoreProcess.Halt (p : CoreProcess) : Option Error × CoreProcess :=
  (none, p)

/-- `func (p *CoreProcess) Kill() error`. -/
def CoreProcess.Kill (p : CoreProcess) : Option Error × CoreProcess :=
  (none, p)

/-- `func (p *CoreProcess) Pid() int`. -/
def CoreProcess.Pid (p : CoreProcess) : Int := p.core.Pid

/-- `func (p *CoreProcess) Running() bool`. -/
def CoreProcess.Running (_p : CoreProcess) : Bool := false

/-- `func (p *CoreProcess) SelectedGoroutine() *G`. -/
def CoreProcess.SelectedGoroutine (p : CoreProcess) : Option G := p.selectedGoroutine

/-- `func (p *CoreProcess) SetBreakpoint(addr uint64, kind BreakpointKind, cond ast.Expr)
(*Breakpoint, error)`. -/
def CoreProcess.SetBreakpoint (p : CoreProcess) (_addr : Nat) (_kind : Nat) (_cond : String) :
    (Option Breakpoint × Option Error) × CoreProcess :=
  ((none, some Error.ErrWriteCore), p)

/-- `func (p *CoreProcess) SwitchThread(tid int) error`; `GetG` is the helper of
package `proc`, its error result is dropped (`p.selectedGoroutine, _ = GetG(...)`). -/
def CoreProcess.SwitchThread (GetG : CoreThread → Option G × Option Error)
    (p : CoreProcess) (tid : Int) : Option Error × CoreProcess :=
  match p.core.Threads tid with
  | some th =>
    let p1 : CoreProcess := { p with currentThread := some th }
    let p2 : CoreProcess := { p1 with selectedGoroutine := (GetG p1.CurrentThread).1 }
    (none, p2)
  | none => (some (Error.threadDoesNotExist tid), p)

/-- `func (p *CoreProcess) SwitchGoroutine(gid int) error`; `FindGoroutine` and
`GetG` are the helpers of package `proc`. -/
def CoreProcess.SwitchGoroutine (FindGoroutine : CoreProcess → Int → Option G × Option Error)
    (GetG : CoreThread → Option G × Option Error)
    (p : CoreProcess) (gid : Int) : Option Error × CoreProcess :=
  match FindGoroutine p gid with
  | (_, some err) => (some err, p)
  | (none, none) =>
    -- user specified -1 and selectedGoroutine is nil
    (none, p)
  | (some g, none) =>
    match g.thread with
    | some t => p.SwitchThread GetG t.ThreadID
    | none => (none, { p with selectedGoroutine := some g })

/-- `func (p *CoreProcess) FindThread(threadID int) (IThread, bool)`. -/
def CoreProcess.FindThread (p : CoreProcess) (threadID : Int) : CoreThread × Bool :=
  (⟨p.core.Threads threadID, p⟩, (p.core.Threads threadID).isSome)

/-- The operations of the `ProcessManipulation` and `BreakpointManipulation`
interfaces of package `target`, with their arguments. -/
inductive Op where
  | ContinueOnce
  | StepInstruction
  | SwitchThread (tid : Int)
  | SwitchGoroutine (gid : Int)
  | RequestManualStop
  | Halt
  | Kill
  | Detach (kill : Bool)
  | SetBreakpoint (addr : Nat) (kind : Nat) (cond : String)
  | ClearBreakpoint (addr : Nat)
  | ClearInternalBreakpoints
  deriving DecidableEq

/-- The CoreProcess after one operation. -/
def CoreProcess.exec (FindGoroutine : CoreProcess → Int → Option G × Option Error)
    (GetG : CoreThread → Option G × Option Error) (p : CoreProcess) : Op → CoreProcess
  | Op.ContinueOnce => p.ContinueOnce.2
  | Op.StepInstruction => p.StepInstruction.2
  | Op.SwitchThread tid => (p.SwitchThread GetG tid).2
  | Op.SwitchGoroutine gid => (p.SwitchGoroutine FindGoroutine GetG gid).2
  | Op.RequestManualStop => p.RequestManualStop.2
  | Op.Halt => p.Halt.2
  | Op.Kill => p.Kill.2
  | Op.Detach kill => (p.Detach kill).2
  | Op.SetBreakpoint addr kind cond => (p.SetBreakpoint addr kind cond).2
  | Op.ClearBreakpoint addr => (p.ClearBreakpoint addr).2
  | Op.ClearInternalBreakpoints => p.ClearInternalBreakpoints.2

/-- The CoreProcess after a sequence of operations, in order. -/
def CoreProcess.run (FindGoroutine : CoreProcess → Int → Option G × Option Error)
    (GetG : CoreThread → Option G × Option Error) : CoreProcess → List Op → CoreProcess
  | p, [] => p
  | p, op :: ops => CoreProcess.run FindGoroutine GetG (p.exec FindGoroutine GetG op) ops

/-- A core with the threads 1 and 2, read through `readerA`. -/
def exampleCore : Core :=
  ⟨readerA, fun tid => if tid = 1 then some ⟨1, 4096⟩ else if tid = 2 then some ⟨2, 8192⟩ else none,
    77⟩

/-- A CoreProcess over `exampleCore` whose current thread is thread 1, with no
goroutine selected. -/
def exampleProcess : CoreProcess :=
  ⟨⟨"linux", "amd64", 0⟩, exampleCore, noBreakpoints, some ⟨1, 4096⟩, none, []⟩

/-- A `GetG` that resolves goroutine 10 on thread 1 and fails on every other thread. -/
def exampleGetG : CoreThread → Option G × Option Error := fun t =>
  match t.th with
  | some th => if th.Pid = 1 then (some ⟨10, some ⟨1⟩⟩, none)
    else (none, some (Error.readerError "no g"))
  | none => (none, some (Error.readerError "no thread"))

/-- A `FindGoroutine` that knows goroutine 10 (bound to thread 1), goroutine 20
(bound to thread 2) and goroutine 30 (bound to no thread); `-1` is the selected
goroutine; every other id is an error. -/
def exampleFindGoroutine : CoreProcess → Int → Option G × Option Error := fun p gid =>
  if gid = -1 then (p.selectedGoroutine, none)
  else if gid = 10 then (some ⟨10, some ⟨1⟩⟩, none)
  else if gid = 20 then (some ⟨20, some ⟨2⟩⟩, none)
  else if gid = 30 then (some ⟨30, none⟩, none)
  else (none, some (Error.readerError "unknown goroutine"))

/-- A reader that reads nothing and reports no error: `n = 0`, `err = nil`. -/
def shortReader : MemoryReader := ⟨fun _ _ => ⟨0, none, []⟩⟩

/-- A thread of a core whose memory is read through `shortReader`. -/
def shortThread : CoreThread :=
  ⟨some ⟨1, 4096⟩,
    ⟨⟨"linux", "amd64", 0⟩, ⟨shortReader, fun _ => none, 77⟩, noBreakpoints, some ⟨1, 4096⟩,
      none, []⟩⟩

end proc

/-! ## minUpdate (`nvim-go/commands/fmt.go`)

Lines are lists of bytes, `bytes.Equal` is equality of lists, an index
expression `in[i]` is the lookup `inp[i]?` (every index the loops use is in
range). The buffer of the editor is not modelled: `minUpdate` returns the call
on the buffer that it issues. -/

namespace commands

/-- A line of a buffer, `[]byte`. -/
abbrev Line := List UInt8

/-- The call `v.SetBufferLineSlice(b, start, end, includeStart, includeEnd, repl)`
that `minUpdate` issues on the buffer `b`. -/
structure SetBufferLineSlice where
  start : Int
  end_ : Int
  includeStart : Bool
  includeEnd : Bool
  repl : List Line
  deriving DecidableEq

/-- The loop `for ; head < n; head++ { if !bytes.Equal(in[head], out[head]) { break } }`.
The first argument bounds the number of iterations; `n - head` iterations are
enough. -/
def headLoop (inp out : List Line) (n : Nat) : Nat → Nat → Nat
  | 0, head => head
  | fuel + 1, head =>
    if head < n then
      if inp[head]? ≠ out[head]? then head
      else headLoop inp out n fuel (head + 1)
    else head

/-- The loop `for ; tail < n; tail++ { if !bytes.Equal(in[len(in)-tail-1],
out[len(out)-tail-1]) { break } }`. The first argument bounds the number of
iterations; `n - tail` iterations are enough. -/
def tailLoop (inp out : List Line) (n : Nat) : Nat → Nat → Nat
  | 0, tail => tail
  | fuel + 1, tail =>
    if tail < n then
      if inp[inp.length - tail - 1]? ≠ out[out.length - tail - 1]? then tail
      else tailLoop inp out n fuel (tail + 1)
    else tail

/-- "Find matching head lines" of `minUpdate` (fmt.go lines 79-88): the value of
`head` after the first loop. -/
def minUpdateHead (inp out : List Line) : Nat :=
  let n := if inp.length < out.length then inp.length else out.length
  headLoop inp out n n 0

/-- "Find matching tail lines" of `minUpdate` (fmt.go lines 96-102): the value of
`tail` after the second loop. -/
def minUpdateTail (inp out : List Line) (head : Nat) : Nat :=
  let n := (if inp.length < out.length then inp.length else out.length) - head
  tailLoop inp out n n 0

/-- `func minUpdate(v *vim.Vim, b vim.Buffer, in [][]byte, out [][]byte) error`:
`none` when the function returns without a call on the buffer, otherwise the
`SetBufferLineSlice` call it issues (whose error it returns). -/
def minUpdate (inp out : List Line) : Option SetBufferLineSlice :=
  let head := minUpdateHead inp out
  -- Nothing to do?
  if head = inp.length ∧ head = out.length then none
  else
    let tail := minUpdateTail inp out head
    -- Update the buffer.
    let end_ : Int := (inp.length : Int) - tail
    let repl := (out.take (out.length - tail)).drop head
    if head = inp.length then some ⟨-1, end_, false, false, repl⟩
    else some ⟨head, end_, true, false, repl⟩

end commands

namespace proc

/-! ## Arithmetic of the embedding -/

theorem uadd_eq {a b : Nat} (h : a + b < W) : uadd a b = a + b := by
  unfold uadd W at *; omega

theorem uadd_lt (a b : Nat) : uadd a b < W := by
  unfold uadd W; omega

theorem usub_eq {a b : Nat} (h : b ≤ a) (ha : a < W) : usub a b = a - b := by
  unfold usub W at *; omega

theorem wrapInt_eq {x : Int} (h1 : -9223372036854775808 ≤ x) (h2 : x < 9223372036854775808) :
    wrapInt x = x := by
  unfold wrapInt; omega

theorem store_length (pb data : List Byte) : (store pb data).length = pb.length := by
  simp [store]; omega

theorem store_nil (data : List Byte) : store [] data = [] := by
  simp [store]

theorem imageReader_fills (m : Nat → Byte) : Fills (imageReader m) := by
  intro buf addr; simp [imageReader]

theorem AddLoop_isSome (reader : MemoryReader) (off length : Nat) (l : List readerEntry) :
    ∀ (acc : List readerEntry) (ins : Bool), (AddLoop reader off length l acc ins).isSome := by
  induction l with
  | nil => intro acc ins; simp [AddLoop]
  | cons e rest ih =>
    intro acc ins
    simp only [AddLoop]
    split_ifs
    all_goals first
      | exact ih _ _
      | (exfalso; omega)

theorem Add_isSome (r : SplicedMemory) (reader : MemoryReader) (off length : Nat) :
    (r.Add reader off length).isSome := by
  unfold SplicedMemory.Add
  split_ifs
  · rfl
  · have h := AddLoop_isSome reader off length r.readers [] false
    cases hx : AddLoop reader off length r.readers [] false with
    | none => rw [hx] at h; simp at h
    | some p => rfl

/-- Entries that end at or before `off` are copied unchanged. -/
theorem AddLoop_before (reader : MemoryReader) (off length : Nat) (hoff : off < W)
    (pre rest : List readerEntry)
    (hpre : ∀ e ∈ pre, 0 < e.length ∧ e.offset + e.length ≤ off) :
    ∀ (acc : List readerEntry) (ins : Bool),
      AddLoop reader off length (pre ++ rest) acc ins
        = AddLoop reader off length rest (acc ++ pre) ins := by
  induction pre with
  | nil => intro acc ins; simp
  | cons e pre ih =>
    intro acc ins
    have he := hpre e (List.mem_cons_self _ _)
    have h1 : usub (uadd e.offset e.length) 1 < off := by
      unfold usub uadd W at *; omega
    have h2 : e.length ≠ 0 := by omega
    rw [List.cons_append, AddLoop]
    simp only [h1, if_true, add, h2, if_false]
    rw [ih (fun x hx => hpre x (List.mem_cons_of_mem _ hx))]
    simp

/-- Entries that start at or after the end of the new region are copied
unchanged, after the new region if it was not inserted before. -/
theorem AddLoop_after (reader : MemoryReader) (off length : Nat) (hlen : 0 < length)
    (hW : off + length ≤ W) (post : List readerEntry)
    (hpost : ∀ e ∈ post, 0 < e.length ∧ off + length ≤ e.offset ∧ e.offset + e.length ≤ W) :
    ∀ (acc : List readerEntry),
      AddLoop reader off length post acc true = some (acc ++ post, true) ∧
      (post ≠ [] → AddLoop reader off length post acc false
        = some (acc ++ ⟨off, length, reader⟩ :: post, true)) := by
  induction post with
  | nil => intro acc; simp [AddLoop]
  | cons e post ih =>
    intro acc
    have he := hpost e (List.mem_cons_self _ _)
    have h1 : ¬ usub (uadd e.offset e.length) 1 < off := by
      unfold usub uadd W at *; omega
    have h2 : usub (uadd off length) 1 < e.offset := by
      unfold usub uadd W at *; omega
    have h3 : e.length ≠ 0 := by omega
    have h4 : length ≠ 0 := by omega
    have ih' := ih (fun x hx => hpost x (List.mem_cons_of_mem _ hx))
    constructor
    · rw [AddLoop]
      simp only [h1, h2, if_true, if_false, add, h3, h4]
      rw [(ih' _).1]; simp
    · intro _
      rw [AddLoop]
      simp only [h1, h2, if_true, if_false, add, h3, h4]
      rw [(ih' _).1]; simp

theorem ReadLoop_skip (e : readerEntry) (rest : List readerEntry) (done buf : List Byte)
    (addr : Nat) (n : Int) (h : uadd e.offset e.length < addr) :
    ReadLoop false (e :: rest) done buf addr n = ReadLoop false rest done buf addr n := by
  rw [ReadLoop]; simp [h]

/-- A region that holds the whole rest of the request and whose reader fills
the buffer ends the read. -/
theorem ReadLoop_last (e : readerEntry) (rest : List readerEntry) (done buf : List Byte)
    (addr : Nat) (n : Int) (hfe : Fills e.reader)
    (h1 : ¬ uadd e.offset e.length < addr)
    (h2 : ¬ uadd addr buf.length > uadd e.offset e.length) :
    ReadLoop false (e :: rest) done buf addr n =
      ⟨wrapInt (n + buf.length), none, done ++ store buf (e.reader.ReadMemory buf addr).data⟩ := by
  have h4 := hfe buf addr
  rw [ReadLoop]
  simp [h1, h2, h4.1, h4.2]

/-- A region that ends inside the request and whose reader fills the buffer
supplies the bytes up to its end; the read goes on with the next region. -/
theorem ReadLoop_clip (e : readerEntry) (rest : List readerEntry) (done buf : List Byte)
    (addr : Nat) (n : Int) (hfe : Fills e.reader)
    (h1 : ¬ uadd e.offset e.length < addr)
    (h2 : uadd addr buf.length > uadd e.offset e.length) :
    usub (uadd e.offset e.length) addr < buf.length ∧
    ReadLoop false (e :: rest) done buf addr n =
      ReadLoop false rest
        (done ++ store (buf.take (usub (uadd e.offset e.length) addr))
          (e.reader.ReadMemory (buf.take (usub (uadd e.offset e.length) addr)) addr).data)
        (buf.drop (usub (uadd e.offset e.length) addr))
        (uadd e.offset e.length)
        (wrapInt (n + usub (uadd e.offset e.length) addr)) := by
  have hlt := uadd_lt e.offset e.length
  have hk : usub (uadd e.offset e.length) addr = uadd e.offset e.length - addr :=
    usub_eq (by omega) hlt
  have hk2 : uadd e.offset e.length - addr < buf.length := by
    have : uadd addr buf.length ≤ addr + buf.length := by
      unfold uadd; exact Nat.mod_le _ _
    omega
  have h4 := hfe (buf.take (uadd e.offset e.length - addr)) addr
  have h5 : (buf.take (uadd e.offset e.length - addr)).length = uadd e.offset e.length - addr := by
    rw [List.length_take]; omega
  have h6 : uadd addr (uadd e.offset e.length - addr) = uadd e.offset e.length := by
    rw [uadd_eq (by omega)]; omega
  refine ⟨by omega, ?_⟩
  rw [ReadLoop]
  have h7 : ¬ (buf.length - (uadd e.offset e.length - addr) = 0) := by omega
  have h8 : ¬ (buf.length ≤ uadd e.offset e.length - addr) := by omega
  simp [h1, h2, hk, h4.1, h4.2, h5, h6, h7, h8]

/-- What `ReadLoop` returns when every reader fills its buffer. -/
theorem ReadLoop_fills (l : List readerEntry) (hf : ∀ e ∈ l, Fills e.reader) :
    ∀ (done buf : List Byte) (addr : Nat) (n : Int), 0 ≤ n →
      n + buf.length < 9223372036854775808 →
      n ≤ (ReadLoop false l done buf addr n).n ∧
      (ReadLoop false l done buf addr n).n ≤ n + buf.length ∧
      ((ReadLoop false l done buf addr n).err ≠ none →
        (ReadLoop false l done buf addr n).n = 0) ∧
      ((ReadLoop false l done buf addr n).err = none →
        (ReadLoop false l done buf addr n).n ≠ 0 ∨
        (ReadLoop false l done buf addr n).n = n + buf.length) ∧
      ((ReadLoop false l done buf addr n).n < n + buf.length →
        (ReadLoop false l done buf addr n).n = n ∨
        ∃ e ∈ l, (addr : Int) + ((ReadLoop false l done buf addr n).n - n)
          = uadd e.offset e.length) := by
  induction l with
  | nil =>
    intro done buf addr n hn hb
    rw [ReadLoop]
    split_ifs with h0
    · subst h0; simp
    · refine ⟨le_refl _, ?_, ?_, ?_, ?_⟩ <;> dsimp only
      · omega
      · intro h; exact absurd rfl h
      · intro _; exact Or.inl h0
      · intro _; exact Or.inl rfl
  | cons e rest ih =>
    intro done buf addr n hn hb
    have ih' := ih (fun x hx => hf x (List.mem_cons_of_mem _ hx))
    have hfe := hf e (List.mem_cons_self _ _)
    by_cases h1 : uadd e.offset e.length < addr
    · rw [ReadLoop_skip e rest done buf addr n h1]
      obtain ⟨a1, a2, a3, a4, a5⟩ := ih' done buf addr n hn hb
      refine ⟨a1, a2, a3, a4, fun h => ?_⟩
      rcases a5 h with h' | ⟨x, hx, hx'⟩
      · exact Or.inl h'
      · exact Or.inr ⟨x, List.mem_cons_of_mem _ hx, hx'⟩
    · by_cases h2 : uadd addr buf.length > uadd e.offset e.length
      · obtain ⟨hk, hr⟩ := ReadLoop_clip e rest done buf addr n hfe h1 h2
        have hlt := uadd_lt e.offset e.length
        have hk' : usub (uadd e.offset e.length) addr = uadd e.offset e.length - addr :=
          usub_eq (by omega) hlt
        have hw : wrapInt (n + usub (uadd e.offset e.length) addr)
            = n + usub (uadd e.offset e.length) addr := wrapInt_eq (by omega) (by omega)
        rw [hr, hw]
        have hlen : (buf.drop (usub (uadd e.offset e.length) addr)).length
            = buf.length - usub (uadd e.offset e.length) addr := List.length_drop _ _
        have IH := ih' (done ++ store (buf.take (usub (uadd e.offset e.length) addr))
          (e.reader.ReadMemory (buf.take (usub (uadd e.offset e.length) addr)) addr).data)
          (buf.drop (usub (uadd e.offset e.length) addr)) (uadd e.offset e.length)
          (n + usub (uadd e.offset e.length) addr) (by omega) (by rw [hlen]; omega)
        rw [hlen] at IH
        generalize ReadLoop false rest _ _ _ _ = r at IH ⊢
        obtain ⟨a1, a2, a3, a4, a5⟩ := IH
        have g1 : n ≤ r.n := by omega
        have g2 : r.n ≤ n + buf.length := by omega
        refine ⟨g1, g2, a3, fun h => ?_, fun h => ?_⟩
        · rcases a4 h with h' | h'
          · exact Or.inl h'
          · exact Or.inr (by omega)
        · have g3 : r.n < n + ↑(usub (uadd e.offset e.length) addr)
              + ↑(buf.length - usub (uadd e.offset e.length) addr) := by omega
          rcases a5 g3 with h' | ⟨x, hx, hx'⟩
          · refine Or.inr ⟨e, List.mem_cons_self _ _, ?_⟩
            clear a4 a5
            omega
          · refine Or.inr ⟨x, List.mem_cons_of_mem _ hx, ?_⟩
            clear a4 a5
            omega
      · rw [ReadLoop_last e rest done buf addr n hfe h1 h2]
        have hw : wrapInt (n + buf.length) = n + buf.length := wrapInt_eq (by omega) (by omega)
        rw [hw]
        refine ⟨?_, ?_, ?_, ?_, ?_⟩ <;> dsimp only
        · omega
        · omega
        · intro h; exact absurd rfl h
        · intro _; exact Or.inr rfl
        · intro h; omega

/-- `Add` on the empty list stores the one region. -/
theorem Add_empty (A : MemoryReader) (off len : Nat) (hlen : 0 < len) :
    SplicedMemory.Add ⟨[]⟩ A off len = some ⟨[⟨off, len, A⟩]⟩ := by
  have h : len ≠ 0 := by omega
  simp [SplicedMemory.Add, AddLoop, h]

/-- Case "punches a hole" on a single region. -/
theorem Add_split_regions (A B : MemoryReader) (a la b lb : Nat)
    (hlb : 0 < lb) (hab : a < b) (hin : b + lb < a + la) (hW : a + la ≤ W) :
    SplicedMemory.Add ⟨[⟨a, la, A⟩]⟩ B b lb
      = some ⟨[⟨a, b - a, A⟩, ⟨b, lb, B⟩, ⟨b + lb, a + la - b - lb, A⟩]⟩ := by
  have e1 : usub (uadd b lb) 1 = b + lb - 1 := by unfold usub uadd W at *; omega
  have e2 : usub (uadd a la) 1 = a + la - 1 := by unfold usub uadd W at *; omega
  have e3 : usub b a = b - a := by unfold usub W at *; omega
  have e4 : uadd (b + lb - 1) 1 = b + lb := by unfold uadd W at *; omega
  have e5 : usub (a + la - 1) (b + lb - 1) = a + la - b - lb := by unfold usub W at *; omega
  have c1 : ¬ a + la - 1 < b := by omega
  have c2 : ¬ b + lb - 1 < a := by omega
  have c3 : ¬ b ≤ a := by omega
  have c4 : ¬ a + la - 1 ≤ b + lb - 1 := by omega
  have c5 : b + lb - 1 < a + la - 1 := by omega
  have n1 : lb ≠ 0 := by omega
  have n2 : b - a ≠ 0 := by omega
  have n3 : a + la - b - lb ≠ 0 := by omega
  simp only [SplicedMemory.Add, AddLoop, e1, e2, e3, e4, e5, c1, c2, c3, c4, c5, hab, n1, n2, n3,
    add, if_true, if_false, and_true, true_and, false_and, and_false, and_self]
  simp

theorem add_zero (acc : List readerEntry) (e : readerEntry) (h : e.length = 0) :
    add acc e = acc := by
  simp [add, h]

theorem add_pos (acc : List readerEntry) (e : readerEntry) (h : e.length ≠ 0) :
    add acc e = acc ++ [e] := by
  simp [add, h]

/-- Regions covered by the new interval are all dropped: the loop leaves its
state as it was, or only inserts the new region. -/
theorem AddLoop_covered (B : MemoryReader) (off len : Nat) (hlen : 0 < len)
    (hW : off + len ≤ W) (l : List readerEntry)
    (hcov : ∀ e ∈ l, off ≤ e.offset ∧ e.offset + e.length ≤ off + len) :
    ∀ (acc : List readerEntry),
      AddLoop B off len l acc true = some (acc, true) ∧
      (AddLoop B off len l acc false = some (acc, false) ∨
       AddLoop B off len l acc false = some (acc ++ [⟨off, len, B⟩], true)) := by
  induction l with
  | nil => intro acc; simp [AddLoop]
  | cons e rest ih =>
    intro acc
    have ih' := ih (fun x hx => hcov x (List.mem_cons_of_mem _ hx))
    have he := hcov e (List.mem_cons_self _ _)
    have hn : len ≠ 0 := by omega
    have hoff : ¬ e.offset < off := by omega
    have hnew : ∀ acc1 : List readerEntry,
        add acc1 ⟨off, len, B⟩ = acc1 ++ [⟨off, len, B⟩] := fun acc1 => add_pos acc1 _ hn
    by_cases h1 : usub (uadd e.offset e.length) 1 < off
    · have hl : e.length = 0 := by
        by_contra hl
        unfold usub uadd W at *; omega
      constructor
      · rw [AddLoop]
        simp only [h1, add_zero acc e hl, if_true]
        exact (ih' acc).1
      · rw [AddLoop]
        simp only [h1, add_zero acc e hl, if_true]
        exact (ih' acc).2
    · by_cases h2 : usub (uadd off len) 1 < e.offset
      · have hl : e.length = 0 := by
          by_contra hl
          unfold usub uadd W at *; omega
        constructor
        · rw [AddLoop]
          simp only [h1, h2, add_zero _ e hl, if_true, if_false, Bool.not_true,
            Bool.false_eq_true]
          exact (ih' acc).1
        · right
          rw [AddLoop]
          simp only [h1, h2, add_zero _ e hl, hnew, if_true, if_false, Bool.not_false]
          exact (ih' _).1
      · by_cases h3 : usub (uadd e.offset e.length) 1 ≤ usub (uadd off len) 1
        · constructor
          · rw [AddLoop]
            simp only [h1, h2, h3, he.1, and_self, if_true, if_false]
            exact (ih' acc).1
          · rw [AddLoop]
            simp only [h1, h2, h3, he.1, and_self, if_true, if_false]
            exact (ih' acc).2
        · have h5 : usub (uadd off len) 1 < usub (uadd e.offset e.length) 1 := by omega
          have hl2 : usub e.length (usub e.offset off) = 0 := by
            unfold usub uadd W at *; omega
          have hdrop : ∀ acc1 : List readerEntry,
              add acc1 ⟨uadd e.offset (usub e.offset off), usub e.length (usub e.offset off),
                e.reader⟩ = acc1 := fun acc1 => add_zero acc1 _ hl2
          constructor
          · rw [AddLoop]
            simp only [h1, h2, h3, h5, he.1, hoff, and_self, and_false, false_and, if_true,
              if_false, hdrop, Bool.not_true, Bool.false_eq_true]
            exact (ih' acc).1
          · right
            rw [AddLoop]
            simp only [h1, h2, h3, h5, he.1, hoff, and_self, and_false, false_and, if_true,
              if_false, hdrop, hnew, Bool.not_false]
            exact (ih' _).1

/-- Result of `Add` when the new interval covers every region. -/
theorem Add_covered (r : SplicedMemory) (B : MemoryReader) (off len : Nat) (hlen : 0 < len)
    (hW : off + len ≤ W)
    (hcov : ∀ e ∈ r.readers, off ≤ e.offset ∧ e.offset + e.length ≤ off + len) :
    r.Add B off len = some ⟨[⟨off, len, B⟩]⟩ := by
  have hn : len ≠ 0 := by omega
  unfold SplicedMemory.Add
  rw [if_neg hn]
  rcases (AddLoop_covered B off len hlen hW r.readers hcov []).2 with h | h
  · rw [h]; simp
  · rw [h]; simp

/-- The buffer after a read on a single region holds bytes stored by the
region's reader, followed by bytes the read did not touch. -/
theorem ReadMemory_single_data (B : MemoryReader) (off len : Nat) (buf : List Byte)
    (addr : Nat) :
    ∃ k, k ≤ buf.length ∧
      (SplicedMemory.ReadMemory ⟨[⟨off, len, B⟩]⟩ buf addr).data
        = store (buf.take k) (B.ReadMemory (buf.take k) addr).data ++ buf.drop k := by
  unfold SplicedMemory.ReadMemory
  rw [ReadLoop]
  by_cases h1 : uadd off len < addr
  · refine ⟨0, Nat.zero_le _, ?_⟩
    simp [h1, ReadLoop, store_nil]
  · by_cases h2 : uadd addr buf.length > uadd off len
    · refine ⟨min (usub (uadd off len) addr) buf.length, Nat.min_le_right _ _, ?_⟩
      have ht : buf.take (min (usub (uadd off len) addr) buf.length)
          = buf.take (usub (uadd off len) addr) := by
        rw [List.take_eq_take]; simp
      have hd : buf.drop (min (usub (uadd off len) addr) buf.length)
          = buf.drop (usub (uadd off len) addr) := by
        rcases Nat.le_total (usub (uadd off len) addr) buf.length with h | h
        · rw [Nat.min_eq_left h]
        · rw [Nat.min_eq_right h, List.drop_length, List.drop_eq_nil_of_le h]
      rw [ht, hd]
      simp only [h1, h2, if_true, if_false, List.nil_append, List.length_take]
      split_ifs <;> simp [ReadLoop, hd] <;> split_ifs <;> rfl
    · refine ⟨buf.length, le_refl _, ?_⟩
      simp only [h1, h2, if_false, List.nil_append, List.take_length, List.drop_length]
      split_ifs <;> simp [ReadLoop] <;> split_ifs <;> rfl

/-- Reads on a single region whose reader fills its buffer: a read that starts
below the end of the region returns the bytes of the request up to the end of
the region, all stored by the reader of the region; a read that starts at or
after the end returns no byte and the "did not match any regions" error. -/
theorem ReadMemory_single_fills (B : MemoryReader) (off len : Nat) (hW : off + len < W)
    (hB : Fills B) (buf : List Byte) (addr : Nat)
    (hbuf : buf.length < 9223372036854775808) (hreq : addr + buf.length < W) :
    (addr < off + len →
      SplicedMemory.ReadMemory ⟨[⟨off, len, B⟩]⟩ buf addr
        = ⟨(min buf.length (off + len - addr) : Nat), none,
           store (buf.take (min buf.length (off + len - addr)))
             (B.ReadMemory (buf.take (min buf.length (off + len - addr))) addr).data
           ++ buf.drop (min buf.length (off + len - addr))⟩) ∧
    (off + len ≤ addr → buf ≠ [] →
      SplicedMemory.ReadMemory ⟨[⟨off, len, B⟩]⟩ buf addr
        = ⟨0, some (Error.noMatch addr), buf⟩) := by
  have e1 : uadd off len = off + len := uadd_eq hW
  have e2 : uadd addr buf.length = addr + buf.length := uadd_eq hreq
  constructor
  · intro hin
    have h1 : ¬ uadd (readerEntry.mk off len B).offset (readerEntry.mk off len B).length < addr := by
      simp only [e1]; omega
    unfold SplicedMemory.ReadMemory
    by_cases h2 : addr + buf.length > off + len
    · have h2' : uadd addr buf.length
          > uadd (readerEntry.mk off len B).offset (readerEntry.mk off len B).length := by
        simp only [e1, e2]; exact h2
      obtain ⟨hk, hr⟩ := ReadLoop_clip ⟨off, len, B⟩ [] [] buf addr 0 hB h1 h2'
      have hk' : usub (off + len) addr = off + len - addr :=
        usub_eq (by omega) (by omega)
      simp only [e1, hk'] at hr hk
      have hm : min buf.length (off + len - addr) = off + len - addr := by omega
      have hw : wrapInt (0 + ((off + len - addr : Nat) : Int)) = ((off + len - addr : Nat) : Int) :=
        by rw [zero_add]; exact wrapInt_eq (by omega) (by omega)
      have hne : ((off + len - addr : Nat) : Int) ≠ 0 :=
        Int.natCast_ne_zero.mpr (Nat.sub_ne_zero_of_lt hin)
      rw [hr, hm, hw, ReadLoop, if_neg hne]
      simp only [List.nil_append]
    · have h2' : ¬ uadd addr buf.length
          > uadd (readerEntry.mk off len B).offset (readerEntry.mk off len B).length := by
        simp only [e1, e2]; exact h2
      have hm : min buf.length (off + len - addr) = buf.length := by omega
      have hw : wrapInt (0 + (buf.length : Int)) = (buf.length : Int) :=
        by rw [zero_add]; exact wrapInt_eq (by omega) (by omega)
      rw [ReadLoop_last ⟨off, len, B⟩ [] [] buf addr 0 hB h1 h2', hm, hw]
      simp
  · intro hout hne
    unfold SplicedMemory.ReadMemory
    have hpos : 0 < buf.length := List.length_pos.2 hne
    by_cases h1 : off + len < addr
    · have h1' : uadd (readerEntry.mk off len B).offset (readerEntry.mk off len B).length < addr := by
        simp only [e1]; exact h1
      rw [ReadLoop_skip ⟨off, len, B⟩ [] [] buf addr 0 h1', ReadLoop]
      simp
    · have ha : addr = off + len := by omega
      have h1' : ¬ uadd (readerEntry.mk off len B).offset (readerEntry.mk off len B).length
          < addr := by
        simp only [e1]; exact h1
      have h2' : uadd addr buf.length
          > uadd (readerEntry.mk off len B).offset (readerEntry.mk off len B).length := by
        simp only [e1, e2]; omega
      obtain ⟨hk, hr⟩ := ReadLoop_clip ⟨off, len, B⟩ [] [] buf addr 0 hB h1' h2'
      have hk' : usub (off + len) addr = 0 := by
        rw [usub_eq (by omega) (by omega)]; omega
      simp only [e1, hk'] at hr
      have hw0 : wrapInt (0 + ((0 : Nat) : Int)) = 0 := by unfold wrapInt; norm_num
      rw [hr, ReadLoop, if_pos hw0]
      simp only [List.take_zero, store_nil, List.drop_zero, List.nil_append, ha]

theorem Sorted_tail {a : readerEntry} {l : List readerEntry} (h : Sorted (a :: l)) :
    Sorted l := by
  cases l with
  | nil => trivial
  | cons b l => exact h.2

theorem Sorted_head_le {a : readerEntry} {l : List readerEntry} (h : Sorted (a :: l)) :
    ∀ e ∈ l, a.offset + a.length ≤ e.offset := by
  induction l generalizing a with
  | nil => intro e he; cases he
  | cons b l ih =>
    intro e he
    rcases List.mem_cons.1 he with h1 | h1
    · subst h1; exact h.1
    · have := ih h.2 e h1
      have := h.1
      omega

theorem Sorted_append_right {pre l : List readerEntry} (h : Sorted (pre ++ l)) : Sorted l := by
  induction pre with
  | nil => exact h
  | cons a pre ih => exact ih (Sorted_tail h)

theorem Sorted_append_le {pre post : List readerEntry} {x : readerEntry}
    (h : Sorted (pre ++ x :: post)) : ∀ e ∈ pre, e.offset + e.length ≤ x.offset := by
  induction pre with
  | nil => intro e he; cases he
  | cons a pre ih =>
    intro e he
    rcases List.mem_cons.1 he with h1 | h1
    · subst h1
      exact Sorted_head_le h x (by simp)
    · exact ih (Sorted_tail h) e h1

/-- Adding an interval identical to a region of a well-formed list replaces the
reader of that region and nothing else. -/
theorem Add_same_interval (pre post : List readerEntry) (X C : MemoryReader) (o l : Nat)
    (hs : Sorted (pre ++ ⟨o, l, X⟩ :: post))
    (hv : ∀ e ∈ pre ++ ⟨o, l, X⟩ :: post, 0 < e.length ∧ e.offset + e.length ≤ W) :
    SplicedMemory.Add ⟨pre ++ ⟨o, l, X⟩ :: post⟩ C o l = some ⟨pre ++ ⟨o, l, C⟩ :: post⟩ := by
  have hx := hv ⟨o, l, X⟩ (by simp)
  simp only at hx
  have hn : l ≠ 0 := by omega
  have hpre : ∀ e ∈ pre, 0 < e.length ∧ e.offset + e.length ≤ o := fun e he =>
    ⟨(hv e (by simp [he])).1, Sorted_append_le hs e he⟩
  have hpost : ∀ e ∈ post, 0 < e.length ∧ o + l ≤ e.offset ∧ e.offset + e.length ≤ W :=
    fun e he => ⟨(hv e (by simp [he])).1, Sorted_head_le (Sorted_append_right hs) e he,
      (hv e (by simp [he])).2⟩
  have c1 : ¬ usub (uadd o l) 1 < o := by unfold usub uadd W at *; omega
  unfold SplicedMemory.Add
  rw [if_neg hn]
  simp only []
  rw [AddLoop_before C o l (by omega) pre _ hpre, AddLoop]
  simp only [c1, if_false, le_refl, and_self, if_true, List.nil_append]
  cases post with
  | nil => simp [AddLoop]
  | cons p post =>
    rw [(AddLoop_after C o l hx.1 hx.2 (p :: post) hpost pre).2 (by simp)]
    simp

theorem AddAll_cons {r r1 : SplicedMemory} {reader : MemoryReader} {off len : Nat}
    (h : r.Add reader off len = some r1) (calls : List (MemoryReader × Nat × Nat)) :
    SplicedMemory.AddAll r ((reader, off, len) :: calls) = SplicedMemory.AddAll r1 calls := by
  rw [SplicedMemory.AddAll, h]

theorem AddAll_nil (r : SplicedMemory) : SplicedMemory.AddAll r [] = some r := by
  rw [SplicedMemory.AddAll]

/-! ## Properties of the specification -/

set_option maxRecDepth 4000

/-- C1 (fails on the code): after `Add(A, 10, 10); Add(B, 10, 5)` on an empty
SplicedMemory the region list is `(10, 5, B), (10, 10, A)`: the case "new reader
overwrites the beginning of the entry" leaves the old region where it was, so
the two regions overlap and the list is not sorted and non-overlapping. -/
theorem Add_head_overlap_not_sorted :
    SplicedMemory.AddAll SplicedMemory.empty [(readerA, 10, 10), (readerB, 10, 5)]
      = some ⟨[⟨10, 5, readerB⟩, ⟨10, 10, readerA⟩]⟩ ∧
    ¬ Sorted [⟨10, 5, readerB⟩, ⟨10, 10, readerA⟩] := by
  constructor
  · rfl
  · decide

/-- C2 (fails on the code): after `Add(A, 10, 20); Add(B, 0, 12); Add(C, 14, 2)`
address 13 lies in the interval of `A` only, and `A` supplies byte 13 for it; the
one-byte read at 13 succeeds but returns byte 213, which is what `C` supplies. -/
theorem ReadMemory_byte_of_wrong_reader :
    (SplicedMemory.AddAll SplicedMemory.empty
        [(readerA, 10, 20), (readerB, 0, 12), (readerC, 14, 2)]).map
      (fun s => s.ReadMemory [0] 13) = some ⟨1, none, [213]⟩ ∧
    readerA.ReadMemory [0] 13 = ⟨1, none, [13]⟩ ∧
    readerC.ReadMemory [0] 13 = ⟨1, none, [213]⟩ := by
  decide

/-- C3 (fails on the code): from `Add(A, 2, 3)`, calling `Add(B, 1, 3)` once leaves
`(1, 3, B), (3, 2, A)` and a one-byte read at 4 returns the byte of `A`; calling it
twice leaves `(1, 3, B)` alone and the same read returns 0 bytes and an error. -/
theorem Add_twice_changes_reads :
    (SplicedMemory.AddAll SplicedMemory.empty [(readerA, 2, 3), (readerB, 1, 3)]).map
      (fun s => s.ReadMemory [0] 4) = some ⟨1, none, [4]⟩ ∧
    (SplicedMemory.AddAll SplicedMemory.empty
        [(readerA, 2, 3), (readerB, 1, 3), (readerB, 1, 3)]).map
      (fun s => s.ReadMemory [0] 4) = some ⟨0, some (Error.noMatch 4), [0]⟩ := by
  decide

/-- C4 (counterexample): with the single region `(0, 10, A)`, whose reader fills
every buffer, a 15-byte read at address 0 returns the partial count 10 together
with a nil error. -/
theorem ReadMemory_partial_count_nil_error :
    Fills readerA ∧
    (SplicedMemory.ReadMemory ⟨[⟨0, 10, readerA⟩]⟩ (List.replicate 15 0) 0).n = 10 ∧
    (10 : Int) < ((List.replicate 15 0 : List Byte).length : Int) ∧
    (SplicedMemory.ReadMemory ⟨[⟨0, 10, readerA⟩]⟩ (List.replicate 15 0) 0).err = none := by
  refine ⟨imageReader_fills _, ?_, ?_, ?_⟩ <;> decide

/-- C4 (amended): for a SplicedMemory whose readers always fill the buffer they
are given, if `ReadMemory` returns a count `n` smaller than `len(buf)`, then
either `n = 0` and the error is non-nil, or `n > 0` and the bytes read end
exactly at the end of a region (`addr + n = offset + length`); in the second
case the error can be nil. -/
theorem ReadMemory_short_count (r : SplicedMemory) (hf : ∀ e ∈ r.readers, Fills e.reader)
    (buf : List Byte) (hlen : buf.length < 9223372036854775808) (addr : Nat)
    (hn : (r.ReadMemory buf addr).n < buf.length) :
    ((r.ReadMemory buf addr).n = 0 ∧ (r.ReadMemory buf addr).err ≠ none) ∨
    (0 < (r.ReadMemory buf addr).n ∧
      ∃ e ∈ r.readers, (addr : Int) + (r.ReadMemory buf addr).n = uadd e.offset e.length) := by
  unfold SplicedMemory.ReadMemory at *
  obtain ⟨a1, _, a3, a4, a5⟩ :=
    ReadLoop_fills r.readers hf [] buf addr 0 (le_refl _) (by omega)
  by_cases he : (ReadLoop false r.readers [] buf addr 0).err = none
  · right
    have h0 : (ReadLoop false r.readers [] buf addr 0).n ≠ 0 := by
      rcases a4 he with h | h
      · exact h
      · omega
    refine ⟨by omega, ?_⟩
    rcases a5 (by omega) with h | ⟨e, he1, he2⟩
    · exact absurd h h0
    · exact ⟨e, he1, by omega⟩
  · left
    exact ⟨a3 he, he⟩

/-- Witness of C4 (amended): the 15-byte read at 0 over the region `(0, 10, A)`. -/
theorem ReadMemory_short_count_witness :
    (SplicedMemory.ReadMemory ⟨[⟨0, 10, readerA⟩]⟩ (List.replicate 15 0) 0).n
      < ((List.replicate 15 0 : List Byte).length : Int) ∧
    (((SplicedMemory.ReadMemory ⟨[⟨0, 10, readerA⟩]⟩ (List.replicate 15 0) 0).n = 0 ∧
      (SplicedMemory.ReadMemory ⟨[⟨0, 10, readerA⟩]⟩ (List.replicate 15 0) 0).err ≠ none) ∨
     (0 < (SplicedMemory.ReadMemory ⟨[⟨0, 10, readerA⟩]⟩ (List.replicate 15 0) 0).n ∧
      ∃ e ∈ [(⟨0, 10, readerA⟩ : readerEntry)],
        ((0 : Nat) : Int) + (SplicedMemory.ReadMemory ⟨[⟨0, 10, readerA⟩]⟩
          (List.replicate 15 0) 0).n = uadd e.offset e.length)) :=
  ⟨by decide,
   ReadMemory_short_count ⟨[⟨0, 10, readerA⟩]⟩
     (by intro e he; simp only [List.mem_singleton] at he; subst he; exact imageReader_fills _)
     (List.replicate 15 0) (by decide) 0 (by decide)⟩


/-- C5 (fails on the code): after `Add(A, 0, 10); Add(B, 20, 10)` a 15-byte read
at address 0 returns `n = 15` with a nil error; bytes 10..14 of the result are the
bytes that reader `B` supplies for the unmapped addresses 10..14. -/
theorem ReadMemory_reads_across_gap :
    (SplicedMemory.AddAll SplicedMemory.empty [(readerA, 0, 10), (readerB, 20, 10)]).map
      (fun s => s.ReadMemory (List.replicate 15 0) 0)
      = some ⟨15, none, [0, 1, 2, 3, 4, 5, 6, 7, 8, 9, 110, 111, 112, 113, 114]⟩ ∧
    readerB.ReadMemory (List.replicate 5 0) 10 = ⟨5, none, [110, 111, 112, 113, 114]⟩ := by
  decide

/-- C6 (fails on the code): address 5 lies in no region of the SplicedMemory with
the single region `(20, 10, A)`, yet a 3-byte read at 5 is delegated to `A` and
returns `n = 3` with a nil error. -/
theorem ReadMemory_below_region :
    SplicedMemory.ReadMemory ⟨[⟨20, 10, readerA⟩]⟩ [0, 0, 0] 5 = ⟨3, none, [5, 6, 7]⟩ := by
  decide

/-- C8: if the new interval `[off, off+len)`, `len > 0`, covers every region of a
SplicedMemory, then after `Add(B, off, len)` exactly one region remains, namely
`(off, len, B)`, and every read returns only bytes of `B`: the buffer of every
read holds bytes stored by `B` (at the address of the read) followed by bytes
the read left untouched; and when `B` fills its buffer and neither the region
nor the request reaches the end of the address space, a read at an address
below `off+len` returns `n = min(len(buf), off+len-addr)` with a nil error and
exactly the `n` bytes that `B` stores for the request clipped to the end of the
region, while a read of a non-empty buffer at or after `off+len` returns no
byte, `n = 0` and the "did not match any regions" error. -/
theorem Add_full_override (r : SplicedMemory) (B : MemoryReader) (off len : Nat)
    (hlen : 0 < len) (hW : off + len ≤ W)
    (hcov : ∀ e ∈ r.readers, off ≤ e.offset ∧ e.offset + e.length ≤ off + len) :
    r.Add B off len = some ⟨[⟨off, len, B⟩]⟩ ∧
    (∀ (buf : List Byte) (addr : Nat), ∃ k, k ≤ buf.length ∧
      (SplicedMemory.ReadMemory ⟨[⟨off, len, B⟩]⟩ buf addr).data
        = store (buf.take k) (B.ReadMemory (buf.take k) addr).data ++ buf.drop k) ∧
    (off + len < W → Fills B → ∀ (buf : List Byte) (addr : Nat),
      buf.length < 9223372036854775808 → addr + buf.length < W →
      (addr < off + len →
        SplicedMemory.ReadMemory ⟨[⟨off, len, B⟩]⟩ buf addr
          = ⟨(min buf.length (off + len - addr) : Nat), none,
             store (buf.take (min buf.length (off + len - addr)))
               (B.ReadMemory (buf.take (min buf.length (off + len - addr))) addr).data
             ++ buf.drop (min buf.length (off + len - addr))⟩) ∧
      (off + len ≤ addr → buf ≠ [] →
        SplicedMemory.ReadMemory ⟨[⟨off, len, B⟩]⟩ buf addr
          = ⟨0, some (Error.noMatch addr), buf⟩)) :=
  ⟨Add_covered r B off len hlen hW hcov,
   fun buf addr => ReadMemory_single_data B off len buf addr,
   fun hW1 hB buf addr hbuf hreq => ReadMemory_single_fills B off len hW1 hB buf addr hbuf hreq⟩

/-- Witness of C8: `Add(A, 0, 100); Add(B, 0, 100)`; a 4-byte read at 98 returns the
two bytes of `B` at 98 and 99, a 4-byte read at 100 returns nothing. -/
theorem Add_full_override_witness :
    SplicedMemory.Add ⟨[⟨0, 100, readerA⟩]⟩ readerB 0 100 = some ⟨[⟨0, 100, readerB⟩]⟩ ∧
    SplicedMemory.ReadMemory ⟨[⟨0, 100, readerB⟩]⟩ [0, 0, 0, 0] 98
      = ⟨2, none, [198, 199, 0, 0]⟩ ∧
    readerB.ReadMemory [0, 0] 98 = ⟨2, none, [198, 199]⟩ ∧
    SplicedMemory.ReadMemory ⟨[⟨0, 100, readerB⟩]⟩ [0, 0, 0, 0] 100
      = ⟨0, some (Error.noMatch 100), [0, 0, 0, 0]⟩ :=
  have h := Add_full_override ⟨[⟨0, 100, readerA⟩]⟩ readerB 0 100 (by decide) (by decide)
    (by intro e he; simp only [List.mem_singleton] at he; subst he; decide)
  ⟨h.1,
   (h.2.2 (by decide) (imageReader_fills _) [0, 0, 0, 0] 98 (by decide) (by decide)).1
     (by decide),
   by decide,
   (h.2.2 (by decide) (imageReader_fills _) [0, 0, 0, 0] 100 (by decide) (by decide)).2
     (by decide) (by decide)⟩

/-- C9 (fails on the code): `Add(A, 0, 100); Add(B, 30, 10); Add(C, 30, 10)` does
leave exactly the regions `(0, 30, A)`, `(30, 10, C)`, `(40, 60, A)`; but after
`Add(A, 10, 10); Add(B, 10, 5)`, which leaves the regions `(10, 5, B)`,
`(10, 10, A)`, re-adding the interval of the region `(10, 10, A)` with the reader
`C` leaves the single region `(10, 10, C)`: the other region `(10, 5, B)` is
dropped, and the one-byte read at 12, served by `B` before, is served by `C`. -/
theorem Add_again_drops_region :
    (∀ A B C : MemoryReader,
      SplicedMemory.AddAll SplicedMemory.empty [(A, 0, 100), (B, 30, 10), (C, 30, 10)]
        = some ⟨[⟨0, 30, A⟩, ⟨30, 10, C⟩, ⟨40, 60, A⟩]⟩) ∧
    SplicedMemory.AddAll SplicedMemory.empty [(readerA, 10, 10), (readerB, 10, 5)]
      = some ⟨[⟨10, 5, readerB⟩, ⟨10, 10, readerA⟩]⟩ ∧
    SplicedMemory.Add ⟨[⟨10, 5, readerB⟩, ⟨10, 10, readerA⟩]⟩ readerC 10 10
      = some ⟨[⟨10, 10, readerC⟩]⟩ ∧
    SplicedMemory.ReadMemory ⟨[⟨10, 5, readerB⟩, ⟨10, 10, readerA⟩]⟩ [0] 12 = ⟨1, none, [112]⟩ ∧
    SplicedMemory.ReadMemory ⟨[⟨10, 10, readerC⟩]⟩ [0] 12 = ⟨1, none, [212]⟩ := by
  refine ⟨fun A B C => ?_, rfl, rfl, by decide, by decide⟩
  have h1 : SplicedMemory.Add SplicedMemory.empty A 0 100 = some ⟨[⟨0, 100, A⟩]⟩ :=
    Add_empty A 0 100 (by omega)
  have h2 : SplicedMemory.Add ⟨[⟨0, 100, A⟩]⟩ B 30 10
      = some ⟨[⟨0, 30, A⟩, ⟨30, 10, B⟩, ⟨40, 60, A⟩]⟩ :=
    Add_split_regions A B 0 100 30 10 (by omega) (by omega) (by omega) (by unfold W; omega)
  have hs : Sorted ([⟨0, 30, A⟩] ++ ⟨30, 10, B⟩ :: [⟨40, 60, A⟩]) :=
    ⟨le_refl _, le_refl _, trivial⟩
  have hv : ∀ e ∈ [(⟨0, 30, A⟩ : readerEntry)] ++ ⟨30, 10, B⟩ :: [⟨40, 60, A⟩],
      0 < e.length ∧ e.offset + e.length ≤ W := by
    intro e he
    simp only [List.cons_append, List.nil_append, List.mem_cons, List.mem_singleton,
      List.not_mem_nil, or_false] at he
    rcases he with h | h | h <;> subst h <;> unfold W <;> constructor <;> simp
  have h3 : SplicedMemory.Add ⟨[⟨0, 30, A⟩, ⟨30, 10, B⟩, ⟨40, 60, A⟩]⟩ C 30 10
      = some ⟨[⟨0, 30, A⟩, ⟨30, 10, C⟩, ⟨40, 60, A⟩]⟩ :=
    Add_same_interval [⟨0, 30, A⟩] [⟨40, 60, A⟩] B C 30 10 hs hv
  rw [AddAll_cons h1, AddAll_cons h2, AddAll_cons h3, AddAll_nil]

/-- C10: `Add(reader, off, 0)` is a no-op: the region list after the call is the
list before it. -/
theorem Add_zero_length (r : SplicedMemory) (reader : MemoryReader) (off : Nat) :
    r.Add reader off 0 = some r := by
  simp [SplicedMemory.Add]

theorem add_positive (acc : List readerEntry) (x : readerEntry)
    (h : ∀ e ∈ acc, 0 < e.length) : ∀ e ∈ add acc x, 0 < e.length := by
  intro e he
  unfold add at he
  split_ifs at he with h0
  · exact h e he
  · rcases List.mem_append.1 he with h1 | h1
    · exact h e h1
    · rw [List.mem_singleton] at h1
      subst h1
      omega

theorem AddLoop_positive (reader : MemoryReader) (off length : Nat) (l : List readerEntry) :
    ∀ (acc : List readerEntry) (ins : Bool) (res : List readerEntry × Bool),
      (∀ e ∈ acc, 0 < e.length) → AddLoop reader off length l acc ins = some res →
      ∀ e ∈ res.1, 0 < e.length := by
  induction l with
  | nil =>
    intro acc ins res hacc h
    simp only [AddLoop, Option.some.injEq] at h
    subst h
    exact hacc
  | cons x rest ih =>
    intro acc ins res hacc h
    rw [AddLoop] at h
    simp only [] at h
    split_ifs at h
    · exact ih (add acc x) ins res (add_positive _ _ hacc) h
    · exact ih (add (add acc _) x) true res (add_positive _ _ (add_positive _ _ hacc)) h
    · exact ih (add acc x) true res (add_positive _ _ hacc) h
    · exact ih acc ins res hacc h
    · exact ih (add acc _) ins res (add_positive _ _ hacc) h
    · exact ih (add (add acc _) _) true res (add_positive _ _ (add_positive _ _ hacc)) h
    · exact ih (add acc _) true res (add_positive _ _ hacc) h
    · exact ih (add (add (add acc _) _) _) true res
        (add_positive _ _ (add_positive _ _ (add_positive _ _ hacc))) h

theorem Add_positive (r r1 : SplicedMemory) (reader : MemoryReader) (off length : Nat)
    (hr : ∀ e ∈ r.readers, 0 < e.length) (h : r.Add reader off length = some r1) :
    ∀ e ∈ r1.readers, 0 < e.length := by
  unfold SplicedMemory.Add at h
  split_ifs at h with h0
  · simp only [Option.some.injEq] at h
    subst h
    exact hr
  · cases hl : AddLoop reader off length r.readers [] false with
    | none => rw [hl] at h; simp at h
    | some res =>
      rw [hl] at h
      simp only [Option.some.injEq] at h
      subst h
      have hp := AddLoop_positive reader off length r.readers [] false res
        (fun e he => absurd he (List.not_mem_nil e)) hl
      intro e he
      simp only at he
      split_ifs at he
      · rcases List.mem_append.1 he with h1 | h1
        · exact hp e h1
        · rw [List.mem_singleton] at h1
          subst h1
          simp only
          omega
      · exact hp e he

theorem AddAll_positive (calls : List (MemoryReader × Nat × Nat)) :
    ∀ r : SplicedMemory, (∀ e ∈ r.readers, 0 < e.length) →
      ∃ r1, SplicedMemory.AddAll r calls = some r1 ∧ ∀ e ∈ r1.readers, 0 < e.length := by
  induction calls with
  | nil => intro r hr; exact ⟨r, AddAll_nil r, hr⟩
  | cons c calls ih =>
    intro r hr
    obtain ⟨reader, off, length⟩ := c
    have hs := Add_isSome r reader off length
    cases hadd : r.Add reader off length with
    | none => rw [hadd] at hs; simp at hs
    | some r1 =>
      rw [AddAll_cons hadd]
      exact ih r1 (Add_positive r r1 reader off length hr hadd)

/-- C11: starting from empty, every sequence of `Add` calls (with any offsets and
lengths, zero lengths included) returns, and no region of length 0 is in the
resulting region list. -/
theorem Add_no_empty_region (calls : List (MemoryReader × Nat × Nat)) :
    ∃ r, SplicedMemory.AddAll SplicedMemory.empty calls = some r ∧
      ∀ e ∈ r.readers, 0 < e.length :=
  AddAll_positive calls SplicedMemory.empty (fun e he => absurd he (List.not_mem_nil e))

theorem Supplies_fills {rd : MemoryReader} {m : Nat → Byte} (h : Supplies rd m) : Fills rd := by
  intro buf addr
  rw [h buf addr]
  exact ⟨rfl, rfl⟩

theorem Supplies_store {rd : MemoryReader} {m : Nat → Byte} (h : Supplies rd m)
    (pb : List Byte) (addr : Nat) :
    store pb (rd.ReadMemory pb addr).data
      = (List.range pb.length).map (fun i => m (uadd addr i)) := by
  rw [h pb addr]
  simp [store]

theorem image_getElem (f : Nat → Byte) (k i : Nat) (h : i < k) :
    ((List.range k).map f)[i]? = some (f i) := by
  simp [h]

theorem request_lt_W (l : List readerEntry) (len addr : Nat)
    (hv : ∀ e ∈ l, 0 < e.length ∧ e.offset + e.length < W)
    (hcov : ∀ x, addr ≤ x → x < addr + len →
      ∃ e ∈ l, e.offset ≤ x ∧ x < e.offset + e.length)
    (hstart : ∃ e ∈ l, addr ≤ e.offset + e.length) : addr + len < W := by
  rcases Nat.eq_zero_or_pos len with h0 | h0
  · obtain ⟨e, he, h⟩ := hstart
    have := (hv e he).2
    omega
  · obtain ⟨e, he, h1, h2⟩ := hcov (addr + len - 1) (by omega) (by omega)
    have := (hv e he).2
    omega

/-- Reads over sorted regions whose readers supply images: a request that is
covered by the regions is filled completely, every byte by the region that
contains its address. -/
theorem ReadLoop_spanning (img : readerEntry → Nat → Byte) (l : List readerEntry) :
    Sorted l → (∀ e ∈ l, 0 < e.length ∧ e.offset + e.length < W) →
    (∀ e ∈ l, Supplies e.reader (img e)) →
    ∀ (done buf : List Byte) (addr : Nat) (n : Int), 0 ≤ n →
      n + buf.length < 9223372036854775808 →
      (∀ x, addr ≤ x → x < addr + buf.length →
        ∃ e ∈ l, e.offset ≤ x ∧ x < e.offset + e.length) →
      (∃ e ∈ l, addr ≤ e.offset + e.length) →
      ∃ out : List Byte,
        ReadLoop false l done buf addr n = ⟨n + buf.length, none, done ++ out⟩ ∧
        out.length = buf.length ∧
        ∀ i, i < buf.length → ∀ e ∈ l, e.offset ≤ addr + i → addr + i < e.offset + e.length →
          out[i]? = some (img e (addr + i)) := by
  induction l with
  | nil =>
    intro _ _ _ done buf addr n _ _ _ hstart
    obtain ⟨e, he, _⟩ := hstart
    cases he
  | cons e rest ih =>
    intro hs hv himg done buf addr n hn hb hcov hstart
    have hW := request_lt_W (e :: rest) buf.length addr hv hcov hstart
    have hve := hv e (List.mem_cons_self _ _)
    have hend : uadd e.offset e.length = e.offset + e.length := uadd_eq hve.2
    have hse := himg e (List.mem_cons_self _ _)
    have hfe := Supplies_fills hse
    have hrest_off : ∀ x ∈ rest, e.offset + e.length ≤ x.offset := Sorted_head_le hs
    have ih' := ih (Sorted_tail hs) (fun x hx => hv x (List.mem_cons_of_mem _ hx))
      (fun x hx => himg x (List.mem_cons_of_mem _ hx))
    by_cases h1 : uadd e.offset e.length < addr
    · rw [ReadLoop_skip e rest done buf addr n h1]
      have hcov' : ∀ x, addr ≤ x → x < addr + buf.length →
          ∃ e' ∈ rest, e'.offset ≤ x ∧ x < e'.offset + e'.length := by
        intro x hx1 hx2
        obtain ⟨e', he', h3, h4⟩ := hcov x hx1 hx2
        rcases List.mem_cons.1 he' with h5 | h5
        · subst h5; omega
        · exact ⟨e', h5, h3, h4⟩
      have hstart' : ∃ e' ∈ rest, addr ≤ e'.offset + e'.length := by
        obtain ⟨e', he', h3⟩ := hstart
        rcases List.mem_cons.1 he' with h5 | h5
        · subst h5; omega
        · exact ⟨e', h5, h3⟩
      obtain ⟨out, r1, r2, r3⟩ := ih' done buf addr n hn hb hcov' hstart'
      refine ⟨out, r1, r2, ?_⟩
      intro i hi e' he' h3 h4
      rcases List.mem_cons.1 he' with h5 | h5
      · subst h5; omega
      · exact r3 i hi e' h5 h3 h4
    · by_cases h2 : uadd addr buf.length > uadd e.offset e.length
      · obtain ⟨hk, hr⟩ := ReadLoop_clip e rest done buf addr n hfe h1 h2
        have hk' : usub (uadd e.offset e.length) addr = e.offset + e.length - addr := by
          rw [usub_eq (by omega) (uadd_lt _ _), hend]
        have hw : wrapInt (n + usub (uadd e.offset e.length) addr)
            = n + usub (uadd e.offset e.length) addr := wrapInt_eq (by omega) (by omega)
        rw [hr, hw]
        generalize hkdef : usub (uadd e.offset e.length) addr = k at *
        have hpb : (buf.take k).length = k := by rw [List.length_take]; omega
        have hst := Supplies_store hse (buf.take k) addr
        rw [hpb] at hst
        rw [hst]
        have hdl : (buf.drop k).length = buf.length - k := List.length_drop _ _
        have hcov' : ∀ x, uadd e.offset e.length ≤ x →
            x < uadd e.offset e.length + (buf.drop k).length →
            ∃ e' ∈ rest, e'.offset ≤ x ∧ x < e'.offset + e'.length := by
          intro x hx1 hx2
          obtain ⟨e', he', h3, h4⟩ := hcov x (by omega) (by omega)
          rcases List.mem_cons.1 he' with h5 | h5
          · subst h5; omega
          · exact ⟨e', h5, h3, h4⟩
        have hstart' : ∃ e' ∈ rest, uadd e.offset e.length ≤ e'.offset + e'.length := by
          obtain ⟨e', he', h3, h4⟩ := hcov' (uadd e.offset e.length) (le_refl _) (by omega)
          exact ⟨e', he', by omega⟩
        obtain ⟨out2, r1, r2, r3⟩ := ih'
          (done ++ (List.range k).map (fun i => img e (uadd addr i)))
          (buf.drop k) (uadd e.offset e.length) (n + k) (by omega) (by omega) hcov' hstart'
        refine ⟨(List.range k).map (fun i => img e (uadd addr i)) ++ out2, ?_, ?_, ?_⟩
        · rw [r1, List.append_assoc]
          have : n + (k : Int) + ((buf.drop k).length : Int) = n + (buf.length : Int) := by
            omega
          rw [this]
        · simp only [List.length_append, List.length_map, List.length_range, r2]
          omega
        · intro i hi e' he' h3 h4
          by_cases hik : i < k
          · rw [List.getElem?_append_left (by simpa using hik), image_getElem _ _ _ hik,
              uadd_eq (by omega)]
            rcases List.mem_cons.1 he' with h5 | h5
            · subst h5; rfl
            · have := hrest_off e' h5
              omega
          · rw [List.getElem?_append_right (by simpa using hik)]
            simp only [List.length_map, List.length_range]
            rcases List.mem_cons.1 he' with h5 | h5
            · subst h5; omega
            · have := r3 (i - k) (by omega) e' h5 (by omega) (by omega)
              rw [this]
              congr 2
              omega
      · rw [ReadLoop_last e rest done buf addr n hfe h1 h2]
        have hw : wrapInt (n + buf.length) = n + buf.length := wrapInt_eq (by omega) (by omega)
        rw [hw, Supplies_store hse buf addr]
        refine ⟨_, rfl, by simp, ?_⟩
        intro i hi e' he' h3 h4
        rw [image_getElem _ _ _ hi, uadd_eq (by omega)]
        rcases List.mem_cons.1 he' with h5 | h5
        · subst h5; rfl
        · have := hrest_off e' h5
          have : uadd addr buf.length = addr + buf.length := uadd_eq hW
          omega

theorem imageReader_supplies (m : Nat → Byte) : Supplies (imageReader m) m :=
  fun _ _ => rfl

/-- Every address of a run of abutting regions lies in one of its regions. -/
theorem run_cover (tl : List readerEntry) :
    ∀ f : readerEntry, Abutting (f :: tl) → ∀ x, f.offset ≤ x → x < runEnd f tl →
      ∃ e ∈ f :: tl, e.offset ≤ x ∧ x < e.offset + e.length := by
  induction tl with
  | nil =>
    intro f _ x h1 h2
    exact ⟨f, List.mem_cons_self _ _, h1, h2⟩
  | cons g tl ih =>
    intro f hab x h1 h2
    by_cases hx : x < f.offset + f.length
    · exact ⟨f, List.mem_cons_self _ _, h1, hx⟩
    · obtain ⟨e, he, h3, h4⟩ := ih g hab.2 x (by have := hab.1; omega) h2
      exact ⟨e, List.mem_cons_of_mem _ he, h3, h4⟩

/-- The end of a run is the end of one of its regions. -/
theorem runEnd_mem (tl : List readerEntry) :
    ∀ f : readerEntry, ∃ e ∈ f :: tl, runEnd f tl = e.offset + e.length := by
  induction tl with
  | nil => intro f; exact ⟨f, List.mem_cons_self _ _, rfl⟩
  | cons g tl ih =>
    intro f
    obtain ⟨e, he, h⟩ := ih g
    exact ⟨e, List.mem_cons_of_mem _ he, h⟩

/-- C12: for a sorted, non-overlapping SplicedMemory (regions of positive length
inside the address space) whose readers fill every buffer with the bytes of
their image, and a request `[addr, addr+len(buf))` that lies inside a run
`f :: tl` of consecutive abutting regions of the list, `ReadMemory` returns
`n = len(buf)` with a nil error, and the output byte for each address of the
request is the byte that the image of the region containing the address holds
for it. -/
theorem ReadMemory_spanning (img : readerEntry → Nat → Byte)
    (pre tl post : List readerEntry) (f : readerEntry)
    (hs : Sorted (pre ++ (f :: tl) ++ post))
    (hv : ∀ e ∈ pre ++ (f :: tl) ++ post, 0 < e.length ∧ e.offset + e.length < W)
    (himg : ∀ e ∈ pre ++ (f :: tl) ++ post, Supplies e.reader (img e))
    (hab : Abutting (f :: tl))
    (buf : List Byte) (addr : Nat) (hlen : buf.length < 9223372036854775808)
    (hlo : f.offset ≤ addr) (hhi : addr + buf.length ≤ runEnd f tl) :
    (SplicedMemory.ReadMemory ⟨pre ++ (f :: tl) ++ post⟩ buf addr).n = buf.length ∧
    (SplicedMemory.ReadMemory ⟨pre ++ (f :: tl) ++ post⟩ buf addr).err = none ∧
    (SplicedMemory.ReadMemory ⟨pre ++ (f :: tl) ++ post⟩ buf addr).data.length
      = buf.length ∧
    ∀ i, i < buf.length → ∀ e ∈ pre ++ (f :: tl) ++ post,
      e.offset ≤ addr + i → addr + i < e.offset + e.length →
      (SplicedMemory.ReadMemory ⟨pre ++ (f :: tl) ++ post⟩ buf addr).data[i]?
        = some (img e (addr + i)) := by
  have hin : ∀ e ∈ f :: tl, e ∈ pre ++ (f :: tl) ++ post := by
    intro e he
    simp only [List.mem_append]
    exact Or.inl (Or.inr he)
  have hcov : ∀ x, addr ≤ x → x < addr + buf.length →
      ∃ e ∈ pre ++ (f :: tl) ++ post, e.offset ≤ x ∧ x < e.offset + e.length := by
    intro x h1 h2
    obtain ⟨e, he, h3, h4⟩ := run_cover tl f hab x (by omega) (by omega)
    exact ⟨e, hin e he, h3, h4⟩
  have hstart : ∃ e ∈ pre ++ (f :: tl) ++ post, addr ≤ e.offset + e.length := by
    obtain ⟨e, he, h⟩ := runEnd_mem tl f
    exact ⟨e, hin e he, by omega⟩
  obtain ⟨out, r1, r2, r3⟩ := ReadLoop_spanning img _ hs hv himg [] buf addr 0 (le_refl _)
    (by omega) hcov hstart
  unfold SplicedMemory.ReadMemory
  simp only []
  rw [r1]
  refine ⟨by simp, rfl, by simpa using r2, ?_⟩
  intro i hi e he h1 h2
  simpa using r3 i hi e he h1 h2

/-- Witness of C12: the regions `(0, 10, A)`, `(10, 10, B)` abut, `(30, 5, C)`
follows after a gap; the 8-byte read at 6 returns the bytes 6..9 of `A` and
10..13 of `B`. -/
theorem ReadMemory_spanning_witness :
    SplicedMemory.ReadMemory ⟨[] ++ (⟨0, 10, readerA⟩ :: [⟨10, 10, readerB⟩]) ++ [⟨30, 5, readerC⟩]⟩
        (List.replicate 8 0) 6
      = ⟨8, none, [6, 7, 8, 9, 110, 111, 112, 113]⟩ ∧
    ((SplicedMemory.ReadMemory
        ⟨[] ++ (⟨0, 10, readerA⟩ :: [⟨10, 10, readerB⟩]) ++ [⟨30, 5, readerC⟩]⟩
        (List.replicate 8 0) 6).n = (List.replicate 8 (0 : Byte)).length ∧
     (SplicedMemory.ReadMemory
        ⟨[] ++ (⟨0, 10, readerA⟩ :: [⟨10, 10, readerB⟩]) ++ [⟨30, 5, readerC⟩]⟩
        (List.replicate 8 0) 6).err = none ∧
     (SplicedMemory.ReadMemory
        ⟨[] ++ (⟨0, 10, readerA⟩ :: [⟨10, 10, readerB⟩]) ++ [⟨30, 5, readerC⟩]⟩
        (List.replicate 8 0) 6).data.length = (List.replicate 8 (0 : Byte)).length ∧
     ∀ i, i < (List.replicate 8 (0 : Byte)).length →
       ∀ e ∈ [] ++ (⟨0, 10, readerA⟩ :: [⟨10, 10, readerB⟩]) ++ [(⟨30, 5, readerC⟩ : readerEntry)],
       e.offset ≤ 6 + i → 6 + i < e.offset + e.length →
       (SplicedMemory.ReadMemory
          ⟨[] ++ (⟨0, 10, readerA⟩ :: [⟨10, 10, readerB⟩]) ++ [⟨30, 5, readerC⟩]⟩
          (List.replicate 8 0) 6).data[i]? = some (exampleImg e (6 + i))) :=
  ⟨by decide,
   ReadMemory_spanning exampleImg [] [⟨10, 10, readerB⟩] [⟨30, 5, readerC⟩] ⟨0, 10, readerA⟩
     (by decide) (by decide)
     (by
       intro e he
       simp only [List.nil_append, List.cons_append, List.mem_cons, List.mem_singleton,
         List.not_mem_nil, or_false] at he
       rcases he with h | h | h <;> subst h <;> intro buf addr <;> rfl)
     (by decide) (List.replicate 8 0) 6 (by decide) (by decide) (by decide)⟩

/-- C13: `CoreThread.ReadMemory` passes the byte count of the underlying core read
through unchanged; when the underlying read returned a nil error the result is
`ErrShortRead` exactly when `n != len(data)`; when the underlying read returned
an error that error is returned unchanged; and the result error is nil if and
only if the underlying read returned nil and `n == len(data)`. -/
theorem CoreThread_ReadMemory_short_read (thread : CoreThread) (data : List Byte) (addr : Nat) :
    (thread.ReadMemory data addr).n = (thread.p.core.mem.ReadMemory data addr).n ∧
    ((thread.p.core.mem.ReadMemory data addr).err = none →
      ((thread.ReadMemory data addr).err = some Error.ErrShortRead ↔
        (thread.p.core.mem.ReadMemory data addr).n ≠ data.length)) ∧
    ((thread.p.core.mem.ReadMemory data addr).err ≠ none →
      (thread.ReadMemory data addr).err = (thread.p.core.mem.ReadMemory data addr).err) ∧
    ((thread.ReadMemory data addr).err = none ↔
      ((thread.p.core.mem.ReadMemory data addr).err = none ∧
        (thread.p.core.mem.ReadMemory data addr).n = data.length)) := by
  unfold CoreThread.ReadMemory
  by_cases h1 : (thread.p.core.mem.ReadMemory data addr).err = none
  · by_cases h2 : (thread.p.core.mem.ReadMemory data addr).n = data.length
    · simp [h1, h2]
    · simp [h1, h2]
  · simp [h1]

/-- Witness of C13: a 3-byte read through a core reader that returns `n = 0` with
a nil error is reported as `ErrShortRead`, with `n = 0`. -/
theorem CoreThread_ReadMemory_short_read_witness :
    (shortThread.p.core.mem.ReadMemory [0, 0, 0] 16).err = none ∧
    (shortThread.p.core.mem.ReadMemory [0, 0, 0] 16).n ≠ ([0, 0, 0] : List Byte).length ∧
    (shortThread.ReadMemory [0, 0, 0] 16).err = some Error.ErrShortRead ∧
    (shortThread.ReadMemory [0, 0, 0] 16).n = (shortThread.p.core.mem.ReadMemory [0, 0, 0] 16).n :=
  ⟨by decide, by decide,
   ((CoreThread_ReadMemory_short_read shortThread [0, 0, 0] 16).2.1 (by decide)).2 (by decide),
   (CoreThread_ReadMemory_short_read shortThread [0, 0, 0] 16).1⟩

/-- C14: for every CoreProcess state and every argument, `SetBreakpoint`,
`ContinueOnce` and `StepInstruction` (on the process and on a CoreThread) return
a non-nil error (`ErrWriteCore`, `ErrContinueCore`) with a nil result and leave
the CoreProcess, its breakpoint map included, unchanged; and no sequence of
operations of the target changes the breakpoint map, so a map that is empty
stays empty. -/
theorem mutation_rejected (FindGoroutine : CoreProcess → Int → Option G × Option Error)
    (GetG : CoreThread → Option G × Option Error) (p : CoreProcess) :
    (∀ (addr kind : Nat) (cond : String),
      p.SetBreakpoint addr kind cond = ((none, some Error.ErrWriteCore), p)) ∧
    p.ContinueOnce = ((none, some Error.ErrContinueCore), p) ∧
    p.StepInstruction = (some Error.ErrContinueCore, p) ∧
    (∀ t : CoreThread, t.StepInstruction = (some Error.ErrContinueCore, t)) ∧
    (∀ ops : List Op, (CoreProcess.run FindGoroutine GetG p ops).breakpoints = p.breakpoints) ∧
    (∀ ops : List Op, p.breakpoints = noBreakpoints →
      (CoreProcess.run FindGoroutine GetG p ops).breakpoints = noBreakpoints) := by
  have hexec : ∀ (q : CoreProcess) (op : Op),
      (q.exec FindGoroutine GetG op).breakpoints = q.breakpoints := by
    intro q op
    cases op with
    | SwitchThread tid =>
      simp only [CoreProcess.exec, CoreProcess.SwitchThread]
      cases q.core.Threads tid <;> rfl
    | SwitchGoroutine gid =>
      simp only [CoreProcess.exec, CoreProcess.SwitchGoroutine]
      rcases hfg : FindGoroutine q gid with ⟨g, err⟩
      cases g with
      | none => cases err <;> rfl
      | some g =>
        cases err with
        | some err => rfl
        | none =>
          simp only []
          cases g.thread with
          | none => rfl
          | some t =>
            simp only [CoreProcess.SwitchThread]
            cases q.core.Threads t.ThreadID <;> rfl
    | _ => rfl
  have hrun : ∀ (ops : List Op) (q : CoreProcess),
      (CoreProcess.run FindGoroutine GetG q ops).breakpoints = q.breakpoints := by
    intro ops
    induction ops with
    | nil => intro q; rfl
    | cons op ops ih =>
      intro q
      rw [CoreProcess.run, ih, hexec]
  refine ⟨fun _ _ _ => rfl, rfl, rfl, fun _ => rfl, fun ops => hrun ops p, fun ops h => ?_⟩
  rw [hrun ops p, h]

/-- Witness of C14: the example process, whose breakpoint map is empty, after
`SetBreakpoint`, a thread switch, a goroutine switch and `ContinueOnce`. -/
theorem mutation_rejected_witness :
    exampleProcess.breakpoints = noBreakpoints ∧
    (CoreProcess.run exampleFindGoroutine exampleGetG exampleProcess
      [Op.SetBreakpoint 4096 0 "", Op.SwitchThread 2, Op.SwitchGoroutine 10,
        Op.ContinueOnce]).breakpoints = noBreakpoints :=
  ⟨rfl, (mutation_rejected exampleFindGoroutine exampleGetG exampleProcess).2.2.2.2.2
    [Op.SetBreakpoint 4096 0 "", Op.SwitchThread 2, Op.SwitchGoroutine 10, Op.ContinueOnce] rfl⟩

/-- C15 (counterexample): on the example process the error of `ClearBreakpoint(1)`
is not the error of `SetBreakpoint` or of `writeMemory`, it is not the error of
`ClearBreakpoint(2)`, and the error of `SetBreakpoint` is not the error of
`ContinueOnce`. -/
theorem ClearBreakpoint_error_differs :
    (exampleProcess.ClearBreakpoint 1).1.2 ≠ (exampleProcess.SetBreakpoint 1 0 "").1.2 ∧
    (exampleProcess.ClearBreakpoint 1).1.2
      ≠ (exampleProcess.CurrentThread.writeMemory 1 [0]).1.2 ∧
    (exampleProcess.ClearBreakpoint 1).1.2 ≠ (exampleProcess.ClearBreakpoint 2).1.2 ∧
    (exampleProcess.SetBreakpoint 1 0 "").1.2 ≠ exampleProcess.ContinueOnce.1.2 := by
  decide

/-- C15 (amended): for every input, `writeMemory` and `SetBreakpoint` fail with
`ErrWriteCore`, `ContinueOnce` and `StepInstruction` (process and thread) fail
with `ErrContinueCore`, and `ClearBreakpoint(addr)` fails with
`NoBreakpointError{addr}`, an error of its own that carries `addr`; none of
them changes the process. -/
theorem mutation_errors (p : CoreProcess) (t : CoreThread) (addr kind : Nat) (cond : String)
    (data : List Byte) :
    t.writeMemory addr data = ((0, some Error.ErrWriteCore), t) ∧
    p.SetBreakpoint addr kind cond = ((none, some Error.ErrWriteCore), p) ∧
    p.ContinueOnce = ((none, some Error.ErrContinueCore), p) ∧
    p.StepInstruction = (some Error.ErrContinueCore, p) ∧
    t.StepInstruction = (some Error.ErrContinueCore, t) ∧
    p.ClearBreakpoint addr = ((none, some (Error.NoBreakpointError addr)), p) ∧
    Error.NoBreakpointError addr ≠ Error.ErrWriteCore ∧
    Error.NoBreakpointError addr ≠ Error.ErrContinueCore ∧
    Error.ErrWriteCore ≠ Error.ErrContinueCore :=
  ⟨rfl, rfl, rfl, rfl, rfl, rfl, by simp, by simp, by simp⟩

/-- C16: for every CoreProcess and every `tid` that is not a key of the thread map
of the core, `SwitchThread(tid)` returns the error "thread tid does not exist"
and leaves `currentThread`, `selectedGoroutine` and every other field unchanged. -/
theorem SwitchThread_not_found (GetG : CoreThread → Option G × Option Error)
    (p : CoreProcess) (tid : Int) (h : p.core.Threads tid = none) :
    p.SwitchThread GetG tid = (some (Error.threadDoesNotExist tid), p) ∧
    (p.SwitchThread GetG tid).2.currentThread = p.currentThread ∧
    (p.SwitchThread GetG tid).2.selectedGoroutine = p.selectedGoroutine := by
  simp [CoreProcess.SwitchThread, h]

/-- Witness of C16: thread 3 is not in the example core. -/
theorem SwitchThread_not_found_witness :
    exampleProcess.core.Threads 3 = none ∧
    exampleProcess.SwitchThread exampleGetG 3
      = (some (Error.threadDoesNotExist 3), exampleProcess) ∧
    (exampleProcess.SwitchThread exampleGetG 3).2.currentThread = exampleProcess.currentThread ∧
    (exampleProcess.SwitchThread exampleGetG 3).2.selectedGoroutine
      = exampleProcess.selectedGoroutine :=
  ⟨by decide, SwitchThread_not_found exampleGetG exampleProcess 3 (by decide)⟩

/-- C17: for every CoreProcess and every `tid` that is a key of the thread map of
the core, `SwitchThread(tid)` returns nil, sets `currentThread` to the snapshot
stored under `tid` and sets `selectedGoroutine` to the first result of `GetG` on
the new current thread (nil when `GetG` resolves none); the error result of
`GetG` is dropped; no other field changes. -/
theorem SwitchThread_found (GetG : CoreThread → Option G × Option Error)
    (p : CoreProcess) (tid : Int) (th : LinuxPrStatus) (h : p.core.Threads tid = some th) :
    (p.SwitchThread GetG tid).1 = none ∧
    (p.SwitchThread GetG tid).2.currentThread = some th ∧
    (p.SwitchThread GetG tid).2.selectedGoroutine
      = (GetG ⟨some th, { p with currentThread := some th }⟩).1 ∧
    (p.SwitchThread GetG tid).2
      = { p with currentThread := some th,
                 selectedGoroutine := (GetG ⟨some th, { p with currentThread := some th }⟩).1 } := by
  simp [CoreProcess.SwitchThread, h, CoreProcess.CurrentThread]

/-- Witness of C17: switching the example process to thread 2, on which the
example `GetG` fails. -/
theorem SwitchThread_found_witness :
    exampleProcess.core.Threads 2 = some ⟨2, 8192⟩ ∧
    (exampleProcess.SwitchThread exampleGetG 2).1 = none ∧
    (exampleProcess.SwitchThread exampleGetG 2).2.currentThread = some ⟨2, 8192⟩ ∧
    (exampleProcess.SwitchThread exampleGetG 2).2.selectedGoroutine
      = (exampleGetG ⟨some ⟨2, 8192⟩,
          { exampleProcess with currentThread := some ⟨2, 8192⟩ }⟩).1 ∧
    (exampleProcess.SwitchThread exampleGetG 2).2
      = { exampleProcess with
            currentThread := some ⟨2, 8192⟩,
            selectedGoroutine := (exampleGetG ⟨some ⟨2, 8192⟩,
              { exampleProcess with currentThread := some ⟨2, 8192⟩ }⟩).1 } :=
  ⟨by decide, SwitchThread_found exampleGetG exampleProcess 2 ⟨2, 8192⟩ (by decide)⟩

/-- C18: if `gid` resolves (via `FindGoroutine`) to a goroutine bound to a thread
whose id is a key of the thread map, with snapshot `T`, then `SwitchGoroutine(gid)`
is the thread switch to that id: it returns nil and afterwards the current
thread is `T` (whatever the current thread was before). -/
theorem SwitchGoroutine_bound (FindGoroutine : CoreProcess → Int → Option G × Option Error)
    (GetG : CoreThread → Option G × Option Error) (p : CoreProcess) (gid : Int)
    (g : G) (t : IThread) (T : LinuxPrStatus)
    (hfind : FindGoroutine p gid = (some g, none)) (hbound : g.thread = some t)
    (hT : p.core.Threads t.ThreadID = some T) :
    (p.SwitchGoroutine FindGoroutine GetG gid).1 = none ∧
    (p.SwitchGoroutine FindGoroutine GetG gid).2.currentThread = some T ∧
    p.SwitchGoroutine FindGoroutine GetG gid = p.SwitchThread GetG t.ThreadID := by
  simp [CoreProcess.SwitchGoroutine, hfind, hbound, CoreProcess.SwitchThread, hT]

/-- Witness of C18: goroutine 20 is bound to thread 2, the current thread of the
example process is thread 1. -/
theorem SwitchGoroutine_bound_witness :
    exampleProcess.currentThread ≠ some ⟨2, 8192⟩ ∧
    (exampleProcess.SwitchGoroutine exampleFindGoroutine exampleGetG 20).1 = none ∧
    (exampleProcess.SwitchGoroutine exampleFindGoroutine exampleGetG 20).2.currentThread
      = some ⟨2, 8192⟩ ∧
    exampleProcess.SwitchGoroutine exampleFindGoroutine exampleGetG 20
      = exampleProcess.SwitchThread exampleGetG (IThread.mk 2).ThreadID :=
  ⟨by decide,
   SwitchGoroutine_bound exampleFindGoroutine exampleGetG exampleProcess 20
     ⟨20, some ⟨2⟩⟩ ⟨2⟩ ⟨2, 8192⟩ (by decide) rfl (by decide)⟩

/-- C19: if `gid` resolves to a goroutine `g` that is bound to no thread,
`SwitchGoroutine(gid)` returns nil, sets `selectedGoroutine` to `g` and leaves
`currentThread` and every other field unchanged. -/
theorem SwitchGoroutine_unbound (FindGoroutine : CoreProcess → Int → Option G × Option Error)
    (GetG : CoreThread → Option G × Option Error) (p : CoreProcess) (gid : Int) (g : G)
    (hfind : FindGoroutine p gid = (some g, none)) (hunbound : g.thread = none) :
    p.SwitchGoroutine FindGoroutine GetG gid = (none, { p with selectedGoroutine := some g }) ∧
    (p.SwitchGoroutine FindGoroutine GetG gid).2.selectedGoroutine = some g ∧
    (p.SwitchGoroutine FindGoroutine GetG gid).2.currentThread = p.currentThread := by
  simp [CoreProcess.SwitchGoroutine, hfind, hunbound]

/-- Witness of C19: goroutine 30 of the example is bound to no thread. -/
theorem SwitchGoroutine_unbound_witness :
    exampleProcess.SwitchGoroutine exampleFindGoroutine exampleGetG 30
      = (none, { exampleProcess with selectedGoroutine := some ⟨30, none⟩ }) ∧
    (exampleProcess.SwitchGoroutine exampleFindGoroutine exampleGetG 30).2.selectedGoroutine
      = some ⟨30, none⟩ ∧
    (exampleProcess.SwitchGoroutine exampleFindGoroutine exampleGetG 30).2.currentThread
      = exampleProcess.currentThread :=
  SwitchGoroutine_unbound exampleFindGoroutine exampleGetG exampleProcess 30 ⟨30, none⟩
    (by decide) rfl

/-- C20: when the goroutine lookup yields no goroutine and no error (id `-1` with
no goroutine selected), `SwitchGoroutine` returns nil and changes nothing; when
the lookup fails, `SwitchGoroutine` returns that error and changes nothing. -/
theorem SwitchGoroutine_no_goroutine (FindGoroutine : CoreProcess → Int → Option G × Option Error)
    (GetG : CoreThread → Option G × Option Error) (p : CoreProcess) (gid : Int) :
    (FindGoroutine p gid = (none, none) →
      p.SwitchGoroutine FindGoroutine GetG gid = (none, p)) ∧
    (∀ (g : Option G) (err : Error), FindGoroutine p gid = (g, some err) →
      p.SwitchGoroutine FindGoroutine GetG gid = (some err, p)) := by
  constructor
  · intro h
    simp [CoreProcess.SwitchGoroutine, h]
  · intro g err h
    cases g <;> simp [CoreProcess.SwitchGoroutine, h]

/-- Witness of C20: id `-1` on the example process, which has no goroutine
selected, and the unknown id 99. -/
theorem SwitchGoroutine_no_goroutine_witness :
    exampleFindGoroutine exampleProcess (-1) = (none, none) ∧
    exampleProcess.SwitchGoroutine exampleFindGoroutine exampleGetG (-1)
      = (none, exampleProcess) ∧
    exampleProcess.SwitchGoroutine exampleFindGoroutine exampleGetG 99
      = (some (Error.readerError "unknown goroutine"), exampleProcess) :=
  ⟨by decide,
   (SwitchGoroutine_no_goroutine exampleFindGoroutine exampleGetG exampleProcess (-1)).1
     (by decide),
   (SwitchGoroutine_no_goroutine exampleFindGoroutine exampleGetG exampleProcess 99).2
     none (Error.readerError "unknown goroutine") (by decide)⟩

theorem add_eq_append (acc : List readerEntry) (x : readerEntry) :
    add acc x = acc ++ (if x.length = 0 then [] else [x]) := by
  unfold add
  split_ifs <;> simp

/-- The loop of `Add` over a concatenation is the loop over the first list
followed by the loop over the second. -/
theorem AddLoop_append (reader : MemoryReader) (off length : Nat) (l1 l2 : List readerEntry) :
    ∀ (acc : List readerEntry) (ins : Bool),
      AddLoop reader off length (l1 ++ l2) acc ins
        = (AddLoop reader off length l1 acc ins).bind
            (fun p => AddLoop reader off length l2 p.1 p.2) := by
  induction l1 with
  | nil => intro acc ins; simp [AddLoop]
  | cons x l1 ih =>
    intro acc ins
    rw [List.cons_append, AddLoop, AddLoop]
    simp only []
    split_ifs <;> first | rw [ih] | rfl

/-- The loop of `Add` only appends to `newReaders`, never returns `none`, never
resets `inserted`, and sets `inserted` only after it has appended the new region. -/
theorem AddLoop_grows (reader : MemoryReader) (off length : Nat) (hlen : length ≠ 0)
    (l : List readerEntry) :
    ∀ (acc : List readerEntry) (ins : Bool), ∃ out ins',
      AddLoop reader off length l acc ins = some (acc ++ out, ins') ∧
      (ins = true → ins' = true) ∧
      (ins' = true → ins = true ∨ (⟨off, length, reader⟩ : readerEntry) ∈ out) := by
  induction l with
  | nil => intro acc ins; exact ⟨[], ins, by simp [AddLoop], id, Or.inl⟩
  | cons x rest ih =>
    intro acc ins
    have key : ∀ (A D : List readerEntry) (I : Bool), A = acc ++ D → (ins = true → I = true) →
        (I = true → ins = true ∨ (⟨off, length, reader⟩ : readerEntry) ∈ D) →
        ∃ out ins', AddLoop reader off length rest A I = some (acc ++ out, ins') ∧
          (ins = true → ins' = true) ∧
          (ins' = true → ins = true ∨ (⟨off, length, reader⟩ : readerEntry) ∈ out) := by
      intro A D I hA h1 h2
      subst hA
      obtain ⟨out, ins', e1, e2, e3⟩ := ih (acc ++ D) I
      refine ⟨D ++ out, ins', by rw [e1, List.append_assoc], fun h => e2 (h1 h), fun h => ?_⟩
      rcases e3 h with h' | h'
      · rcases h2 h' with h'' | h''
        · exact Or.inl h''
        · exact Or.inr (List.mem_append_left _ h'')
      · exact Or.inr (List.mem_append_right _ h')
    have hmem : ∀ (D : List readerEntry) (y : readerEntry),
        (⟨off, length, reader⟩ : readerEntry) ∈ add (add D ⟨off, length, reader⟩) y := by
      intro D y
      simp [add_eq_append, hlen]
    have happ : ∀ (B : List readerEntry) (y : readerEntry), add (acc ++ B) y = acc ++ add B y := by
      intro B y
      simp [add_eq_append]
    have happ0 : ∀ (y : readerEntry), add acc y = acc ++ add [] y := by
      intro y
      simp [add_eq_append]
    rw [AddLoop]
    simp only []
    split_ifs with c1 c2 c3 c4 c5 c6 c7 c8
    · exact key (add acc x) (add [] x) ins (happ0 x) id (fun h => Or.inl h)
    · exact key (add (add acc ⟨off, length, reader⟩) x) (add (add [] ⟨off, length, reader⟩) x) true
        (by rw [happ0, happ]) (fun _ => rfl) (fun _ => Or.inr (hmem _ _))
    · exact key (add acc x) (add [] x) true (happ0 x) (fun _ => rfl)
        (fun _ => Or.inl (by simpa using c3))
    · exact key acc [] ins (List.append_nil acc).symm id (fun h => Or.inl h)
    · exact key (add acc ⟨x.offset, usub off x.offset, x.reader⟩)
        (add [] ⟨x.offset, usub off x.offset, x.reader⟩) ins (happ0 _) id (fun h => Or.inl h)
    · exact key
        (add (add acc ⟨off, length, reader⟩)
          ⟨uadd x.offset (usub x.offset off), usub x.length (usub x.offset off), x.reader⟩)
        (add (add [] ⟨off, length, reader⟩)
          ⟨uadd x.offset (usub x.offset off), usub x.length (usub x.offset off), x.reader⟩) true
        (by rw [happ0, happ]) (fun _ => rfl) (fun _ => Or.inr (hmem _ _))
    · exact key
        (add acc ⟨uadd x.offset (usub x.offset off), usub x.length (usub x.offset off), x.reader⟩)
        (add [] ⟨uadd x.offset (usub x.offset off), usub x.length (usub x.offset off), x.reader⟩)
        true (happ0 _) (fun _ => rfl) (fun _ => Or.inl (by simp_all))
    · exact key
        (add (add (add acc ⟨x.offset, usub off x.offset, x.reader⟩) ⟨off, length, reader⟩)
          ⟨uadd (usub (uadd off length) 1) 1,
            usub (usub (uadd x.offset x.length) 1) (usub (uadd off length) 1), x.reader⟩)
        (add (add (add [] ⟨x.offset, usub off x.offset, x.reader⟩) ⟨off, length, reader⟩)
          ⟨uadd (usub (uadd off length) 1) 1,
            usub (usub (uadd x.offset x.length) 1) (usub (uadd off length) 1), x.reader⟩)
        true (by rw [happ0, happ, happ]) (fun _ => rfl) (fun _ => Or.inr (hmem _ _))
    · exfalso; omega

/-- Every error of the read loop, run with `started = false`, is an error of a
region's reader or the `noMatch` error, the latter with `n = 0`. -/
theorem ReadLoop_error (l : List readerEntry) :
    ∀ (done buf : List Byte) (addr : Nat) (n : Int) (err : Error),
      (ReadLoop false l done buf addr n).err = some err →
      (∃ e ∈ l, ∃ pb a, (e.reader.ReadMemory pb a).err = some err) ∨
      (∃ a, err = Error.noMatch a ∧ (ReadLoop false l done buf addr n).n = 0) := by
  induction l with
  | nil =>
    intro done buf addr n err h
    rw [ReadLoop] at h ⊢
    split_ifs at h ⊢ with h0
    simp only [Option.some.injEq] at h
    exact Or.inr ⟨addr, h.symm, rfl⟩
  | cons e rest ih =>
    intro done buf addr n err h
    by_cases h1 : uadd e.offset e.length < addr
    · rw [ReadLoop_skip e rest done buf addr n h1] at h ⊢
      rcases ih done buf addr n err h with ⟨x, hx, hx'⟩ | h'
      · exact Or.inl ⟨x, List.mem_cons_of_mem _ hx, hx'⟩
      · exact Or.inr h'
    · rw [ReadLoop] at h ⊢
      simp only [h1, if_false] at h ⊢
      generalize (if uadd addr buf.length > uadd e.offset e.length
        then List.take (usub (uadd e.offset e.length) addr) buf else buf) = pb at h ⊢
      by_cases h2 : (e.reader.ReadMemory pb addr).err ≠ none ∨
          (e.reader.ReadMemory pb addr).n ≠ pb.length
      · rw [if_pos h2] at h
        exact Or.inl ⟨e, List.mem_cons_self _ _, pb, addr, h⟩
      · rw [if_neg h2] at h ⊢
        by_cases h3 : (List.drop pb.length buf).length = 0
        · rw [if_pos h3] at h
          simp at h
        · rw [if_neg h3] at h ⊢
          rcases ih (done ++ store pb (e.reader.ReadMemory pb addr).data)
            (List.drop pb.length buf) (uadd addr pb.length)
            (wrapInt (n + (e.reader.ReadMemory pb addr).n)) err h with ⟨x, hx, hx'⟩ | h'
          · exact Or.inl ⟨x, List.mem_cons_of_mem _ hx, hx'⟩
          · exact Or.inr h'

/-- C28: `SplicedMemory.ReadMemory` never creates the "hit unmapped area" error:
for every region list, buffer and address, an error it returns is an error
returned by the reader of one of its regions, or the "did not match any
regions" error, and the latter comes with `n = 0`. -/
theorem ReadMemory_errors (r : SplicedMemory) (buf : List Byte) (addr : Nat) (err : Error) :
    ((r.ReadMemory buf addr).err = some err →
      (∃ e ∈ r.readers, ∃ pb a, (e.reader.ReadMemory pb a).err = some err) ∨
      (∃ a, err = Error.noMatch a ∧ (r.ReadMemory buf addr).n = 0)) ∧
    (∀ a k, (r.ReadMemory buf addr).err = some (Error.hitUnmapped a k) →
      ∃ e ∈ r.readers, ∃ pb a1, (e.reader.ReadMemory pb a1).err = some (Error.hitUnmapped a k)) := by
  constructor
  · exact ReadLoop_error r.readers [] buf addr 0 err
  · intro a k h
    rcases ReadLoop_error r.readers [] buf addr 0 _ h with h' | ⟨a1, h1, _⟩
    · exact h'
    · cases h1

/-- C21: for every CoreProcess state, `ClearInternalBreakpoints`,
`RequestManualStop`, `Halt`, `Kill` and `Detach` (with either boolean argument)
return a nil error and leave the CoreProcess, with all its fields, unchanged. -/
theorem lifecycle_noops (p : CoreProcess) (b : Bool) :
    p.ClearInternalBreakpoints = (none, p) ∧
    p.RequestManualStop = (none, p) ∧
    p.Halt = (none, p) ∧
    p.Kill = (none, p) ∧
    p.Detach b = (none, p) :=
  ⟨rfl, rfl, rfl, rfl, rfl⟩

/-- C22: for every CoreProcess state reached by any sequence of operations of the
target (`Kill`, `Detach` and `Halt` included), `Running()` returns false and
`Exited()` returns false. -/
theorem Running_Exited_false (FindGoroutine : CoreProcess → Int → Option G × Option Error)
    (GetG : CoreThread → Option G × Option Error) (p : CoreProcess) (ops : List Op) :
    (CoreProcess.run FindGoroutine GetG p ops).Running = false ∧
    (CoreProcess.run FindGoroutine GetG p ops).Exited = false :=
  ⟨rfl, rfl⟩

/-- C23 (fails on the code): the new interval `[0, 12)` covers the head of the
region `(10, 20, A)`; `Add(B, 0, 12)` emits the new region and then `(20, 10, A)`,
not the suffix `(12, 18, A)` that starts right after the new interval; and with
the region `(10, 10, A)`, `Add(B, 10, 5)` emits `(10, 10, A)` itself, not
`(15, 5, A)`. -/
theorem Add_head_case_suffix :
    SplicedMemory.Add ⟨[⟨10, 20, readerA⟩]⟩ readerB 0 12
      = some ⟨[⟨0, 12, readerB⟩, ⟨20, 10, readerA⟩]⟩ ∧
    SplicedMemory.Add ⟨[⟨10, 10, readerA⟩]⟩ readerB 10 5
      = some ⟨[⟨10, 5, readerB⟩, ⟨10, 10, readerA⟩]⟩ :=
  ⟨rfl, rfl⟩

/-- C26 (fails on the code): after `Add(A, 10, 10); Add(B, 10, 5)`, which leaves
two overlapping regions, `Add(C, 12, 1)` punches a hole in both of them and
emits the new region `(12, 1, C)` twice. -/
theorem Add_emits_new_region_twice :
    SplicedMemory.AddAll SplicedMemory.empty [(readerA, 10, 10), (readerB, 10, 5), (readerC, 12, 1)]
      = some ⟨[⟨10, 2, readerB⟩, ⟨12, 1, readerC⟩, ⟨13, 2, readerB⟩,
               ⟨10, 2, readerA⟩, ⟨12, 1, readerC⟩, ⟨13, 7, readerA⟩]⟩ ∧
    (([⟨10, 2, readerB⟩, ⟨12, 1, readerC⟩, ⟨13, 2, readerB⟩,
        ⟨10, 2, readerA⟩, ⟨12, 1, readerC⟩, ⟨13, 7, readerA⟩] : List readerEntry).filter
      (fun e => decide (e.offset = 12 ∧ e.length = 1))).length = 2 :=
  ⟨rfl, by decide⟩

/-- C27: for every region list and every `(off, length)`, over wrapping
machine-word arithmetic, `Add` returns a region list: each region falls into
one of the six handled cases and the `Unhandled case` panic is never reached. -/
theorem Add_never_panics (r : SplicedMemory) (reader : MemoryReader) (off length : Nat) :
    (∀ (acc : List readerEntry) (ins : Bool),
      ∃ res, AddLoop reader off length r.readers acc ins = some res) ∧
    ∃ r1, r.Add reader off length = some r1 := by
  constructor
  · intro acc ins
    exact Option.isSome_iff_exists.1 (AddLoop_isSome reader off length r.readers acc ins)
  · exact Option.isSome_iff_exists.1 (Add_isSome r reader off length)

/-- One round of the loop of `Add`: it appends to `newReaders`, and a region of
positive length that lies before or after the new interval is appended as it
is. -/
theorem AddLoop_step (reader : MemoryReader) (off length : Nat) (x : readerEntry)
    (rest acc : List readerEntry) (ins : Bool) :
    ∃ D I, AddLoop reader off length (x :: rest) acc ins
        = AddLoop reader off length rest (acc ++ D) I ∧
      (x.length ≠ 0 →
        (usub (uadd x.offset x.length) 1 < off ∨ usub (uadd off length) 1 < x.offset) →
        x ∈ D) := by
  have happ : ∀ (B : List readerEntry) (y : readerEntry), add (acc ++ B) y = acc ++ add B y := by
    intro B y
    simp [add_eq_append]
  have happ0 : ∀ (y : readerEntry), add acc y = acc ++ add [] y := by
    intro y
    simp [add_eq_append]
  have hx : ∀ B : List readerEntry, x.length ≠ 0 → x ∈ add B x := by
    intro B h
    simp [add_eq_append, h]
  rw [AddLoop]
  simp only []
  split_ifs with c1 c2 c3 c4 c5 c6 c7 c8
  · exact ⟨add [] x, ins, by rw [happ0], fun h _ => hx _ h⟩
  · exact ⟨add (add [] ⟨off, length, reader⟩) x, true, by rw [happ0, happ], fun h _ => hx _ h⟩
  · exact ⟨add [] x, true, by rw [happ0], fun h _ => hx _ h⟩
  · refine ⟨[], ins, by rw [List.append_nil], fun _ h => ?_⟩
    rcases h with h | h <;> omega
  · refine ⟨add [] ⟨x.offset, usub off x.offset, x.reader⟩, ins, by rw [happ0], fun _ h => ?_⟩
    rcases h with h | h <;> omega
  · refine ⟨add (add [] ⟨off, length, reader⟩)
        ⟨uadd x.offset (usub x.offset off), usub x.length (usub x.offset off), x.reader⟩, true,
      by rw [happ0, happ], fun _ h => ?_⟩
    rcases h with h | h <;> omega
  · refine ⟨add [] ⟨uadd x.offset (usub x.offset off), usub x.length (usub x.offset off),
        x.reader⟩, true, by rw [happ0], fun _ h => ?_⟩
    rcases h with h | h <;> omega
  · refine ⟨add (add (add [] ⟨x.offset, usub off x.offset, x.reader⟩) ⟨off, length, reader⟩)
        ⟨uadd (usub (uadd off length) 1) 1,
          usub (usub (uadd x.offset x.length) 1) (usub (uadd off length) 1), x.reader⟩, true,
      by rw [happ0, happ, happ], fun _ h => ?_⟩
    rcases h with h | h <;> omega
  · exfalso; omega

/-- Every region of positive length that lies before or after the new interval
is in the list that the loop of `Add` returns, whatever the list is. -/
theorem AddLoop_keeps (reader : MemoryReader) (off length : Nat)
    (l : List readerEntry) :
    ∀ (acc : List readerEntry) (ins : Bool) (res : List readerEntry × Bool),
      AddLoop reader off length l acc ins = some res →
      (∀ e ∈ acc, e ∈ res.1) ∧
      ∀ e ∈ l, e.length ≠ 0 →
        (usub (uadd e.offset e.length) 1 < off ∨ usub (uadd off length) 1 < e.offset) →
        e ∈ res.1 := by
  induction l with
  | nil =>
    intro acc ins res h
    simp only [AddLoop, Option.some.injEq] at h
    subst h
    exact ⟨fun e he => he, fun e he => absurd he (List.not_mem_nil e)⟩
  | cons x rest ih =>
    intro acc ins res h
    obtain ⟨D, I, h1, h2⟩ := AddLoop_step reader off length x rest acc ins
    rw [h1] at h
    obtain ⟨k1, k2⟩ := ih (acc ++ D) I res h
    refine ⟨fun e he => k1 e (List.mem_append_left _ he), fun e he hl hba => ?_⟩
    rcases List.mem_cons.1 he with h3 | h3
    · subst h3
      exact k1 e (List.mem_append_right _ (h2 hl hba))
    · exact k2 e h3 hl hba

/-- Every region of positive length that lies before or after the new interval
is in the list after `Add`, whatever the list is. -/
theorem Add_keeps (r : SplicedMemory) (reader : MemoryReader) (off length : Nat)
    (hlen : length ≠ 0) (e : readerEntry) (he : e ∈ r.readers) (hl : e.length ≠ 0)
    (hba : usub (uadd e.offset e.length) 1 < off ∨ usub (uadd off length) 1 < e.offset) :
    ∃ r1, r.Add reader off length = some r1 ∧ e ∈ r1.readers := by
  unfold SplicedMemory.Add
  rw [if_neg hlen]
  cases hloop : AddLoop reader off length r.readers [] false with
  | none =>
    have := AddLoop_isSome reader off length r.readers [] false
    rw [hloop] at this
    cases this
  | some res =>
    have hk := (AddLoop_keeps reader off length r.readers [] false res hloop).2 e he hl hba
    refine ⟨_, rfl, ?_⟩
    simp only []
    split_ifs
    · exact List.mem_append_left _ hk
    · exact hk

/-- Tail overwrite on a list whose regions before `e` lie before the new
interval, as they do in a sorted list: when the new interval covers the tail of
`e` (`e.offset < off <= e.offset+e.length-1 <= off+len-1`), `Add` keeps the prefix
`(e.offset, off-e.offset, e.reader)` of `e`, which has positive length, in the
place of `e`, and the new region comes after it in the list. -/
theorem Add_tail_overwrite_of_before (reader : MemoryReader) (off len : Nat) (hlen : 0 < len)
    (hW : off + len ≤ W) (pre post : List readerEntry) (e : readerEntry)
    (hpre : ∀ x ∈ pre, 0 < x.length ∧ x.offset + x.length ≤ off)
    (h1 : e.offset < off) (h2 : off ≤ e.offset + e.length - 1)
    (h3 : e.offset + e.length - 1 ≤ off + len - 1) :
    ∃ tail, SplicedMemory.Add ⟨pre ++ e :: post⟩ reader off len
        = some ⟨pre ++ ⟨e.offset, off - e.offset, e.reader⟩ :: tail⟩ ∧
      0 < off - e.offset ∧ (⟨off, len, reader⟩ : readerEntry) ∈ tail := by
  have hn : len ≠ 0 := by omega
  have e1 : usub (uadd off len) 1 = off + len - 1 := by unfold usub uadd W at *; omega
  have e2 : usub (uadd e.offset e.length) 1 = e.offset + e.length - 1 := by
    unfold usub uadd W at *; omega
  have e3 : usub off e.offset = off - e.offset := by unfold usub W at *; omega
  have c1 : ¬ e.offset + e.length - 1 < off := by omega
  have c2 : ¬ off + len - 1 < e.offset := by omega
  have c3 : ¬ off ≤ e.offset := by omega
  have hp : add ([] ++ pre) ⟨e.offset, off - e.offset, e.reader⟩
      = pre ++ [⟨e.offset, off - e.offset, e.reader⟩] := by
    rw [add_pos _ _ (by simp only; omega)]; simp
  obtain ⟨out, ins', g1, _, g3⟩ :=
    AddLoop_grows reader off len hn post (pre ++ [⟨e.offset, off - e.offset, e.reader⟩]) false
  have hloop : AddLoop reader off len (pre ++ e :: post) [] false
      = some (pre ++ [⟨e.offset, off - e.offset, e.reader⟩] ++ out, ins') := by
    rw [AddLoop_before reader off len (by omega) pre _ hpre, AddLoop]
    simp only [e1, e2, e3, c1, c2, c3, h1, h3, if_true, if_false, and_true, true_and, false_and,
      and_self, hp]
    exact g1
  unfold SplicedMemory.Add
  rw [if_neg hn]
  simp only []
  rw [hloop]
  cases ins' with
  | true =>
    refine ⟨out, by simp, by omega, ?_⟩
    rcases g3 rfl with h | h
    · cases h
    · exact h
  | false =>
    exact ⟨out ++ [⟨off, len, reader⟩], by simp, by omega, by simp⟩

/-- Frame of `Add`: regions before the new interval at the front of the list and
regions after it at the back of the list are kept where they are, the new
region comes between them. -/
theorem Add_frame_regions (reader : MemoryReader) (off len : Nat) (hlen : 0 < len)
    (hW : off + len ≤ W) (pre mid post : List readerEntry)
    (hpre : ∀ x ∈ pre, 0 < x.length ∧ x.offset + x.length ≤ off)
    (hpost : ∀ x ∈ post, 0 < x.length ∧ off + len ≤ x.offset ∧ x.offset + x.length ≤ W) :
    ∃ mid', SplicedMemory.Add ⟨pre ++ mid ++ post⟩ reader off len
        = some ⟨pre ++ mid' ++ post⟩ ∧ (⟨off, len, reader⟩ : readerEntry) ∈ mid' := by
  have hn : len ≠ 0 := by omega
  obtain ⟨out, ins', g1, _, g3⟩ := AddLoop_grows reader off len hn mid pre false
  have hafter := AddLoop_after reader off len hlen hW post hpost (pre ++ out)
  have hloop : AddLoop reader off len (pre ++ mid ++ post) [] false
      = AddLoop reader off len post (pre ++ out) ins' := by
    rw [List.append_assoc, AddLoop_before reader off len (by omega) pre _ hpre,
      AddLoop_append, List.nil_append, g1]
    rfl
  unfold SplicedMemory.Add
  rw [if_neg hn]
  simp only []
  rw [hloop]
  cases ins' with
  | true =>
    rw [hafter.1]
    refine ⟨out, by simp, ?_⟩
    rcases g3 rfl with h | h
    · cases h
    · exact h
  | false =>
    cases post with
    | nil => exact ⟨out ++ [⟨off, len, reader⟩], by simp [AddLoop], by simp⟩
    | cons p post =>
      rw [hafter.2 (by simp)]
      exact ⟨out ++ [⟨off, len, reader⟩], by simp, by simp⟩

/-- Frame of `Add` on a list whose first regions `pre` lie strictly before the
new interval and whose last regions `post` lie strictly after it, as in a
sorted list: the result is `pre ++ mid' ++ post` with the new region in `mid'`;
and in every list, sorted or not, every region of positive length that lies
before or after the new interval is in the result with the same offset, length
and reader. -/
theorem Add_frame_of_sorted (reader : MemoryReader) (off len : Nat) (hlen : 0 < len)
    (hW : off + len ≤ W) (pre mid post : List readerEntry)
    (hpre : ∀ x ∈ pre, 0 < x.length ∧ x.offset + x.length ≤ off)
    (hpost : ∀ x ∈ post, 0 < x.length ∧ off + len ≤ x.offset ∧ x.offset + x.length ≤ W) :
    (∃ mid', SplicedMemory.Add ⟨pre ++ mid ++ post⟩ reader off len
        = some ⟨pre ++ mid' ++ post⟩ ∧ (⟨off, len, reader⟩ : readerEntry) ∈ mid') ∧
    (∀ (l : List readerEntry) (e : readerEntry), e ∈ l → e.length ≠ 0 →
      (usub (uadd e.offset e.length) 1 < off ∨ usub (uadd off len) 1 < e.offset) →
      ∃ r1, SplicedMemory.Add ⟨l⟩ reader off len = some r1 ∧ e ∈ r1.readers) :=
  ⟨Add_frame_regions reader off len hlen hW pre mid post hpre hpost,
   fun l e he hl hba => Add_keeps ⟨l⟩ reader off len (by omega) e he hl hba⟩

/-- C24 (fails on the code): `Add(A, 0, 5); Add(B, 0, 4); Add(C, 2, 1)` leaves the
regions `(0, 2, B)`, `(2, 1, C)`, `(3, 1, B)`, `(0, 2, A)`, `(2, 1, C)`, `(3, 2, A)`. The new
interval of `Add(D, 1, 1)` covers the tail of the region `e = (0, 2, A)`
(`0 < 1 <= 0+2-1 <= 1+1-1`); the prefix `(0, 1, A)` of `e` is kept, but the new
region `(1, 1, D)` is placed before it in the list, and no region `(1, 1, _)`
follows it. -/
theorem Add_tail_overwrite_new_region_first :
    SplicedMemory.AddAll SplicedMemory.empty [(readerA, 0, 5), (readerB, 0, 4), (readerC, 2, 1)]
      = some ⟨[⟨0, 2, readerB⟩, ⟨2, 1, readerC⟩, ⟨3, 1, readerB⟩,
               ⟨0, 2, readerA⟩, ⟨2, 1, readerC⟩, ⟨3, 2, readerA⟩]⟩ ∧
    ((0 : Nat) < 1 ∧ 1 ≤ 0 + 2 - 1 ∧ 0 + 2 - 1 ≤ 1 + 1 - 1) ∧
    SplicedMemory.Add ⟨[⟨0, 2, readerB⟩, ⟨2, 1, readerC⟩, ⟨3, 1, readerB⟩,
        ⟨0, 2, readerA⟩, ⟨2, 1, readerC⟩, ⟨3, 2, readerA⟩]⟩ readerD 1 1
      = some ⟨[⟨0, 1, readerB⟩, ⟨1, 1, readerD⟩, ⟨2, 1, readerC⟩, ⟨3, 1, readerB⟩]
          ++ ⟨0, 1 - 0, readerA⟩ :: [⟨2, 1, readerC⟩, ⟨3, 2, readerA⟩]⟩ ∧
    (∀ x ∈ [(⟨2, 1, readerC⟩ : readerEntry), ⟨3, 2, readerA⟩], ¬ (x.offset = 1 ∧ x.length = 1)) :=
  ⟨rfl, by decide, rfl, by decide⟩

/-- C25 (fails on the code): `Add(A, 10, 10); Add(B, 10, 5); Add(C, 12, 1)` leaves
the regions `(10, 2, B)`, `(12, 1, C)`, `(13, 2, B)`, `(10, 2, A)`, `(12, 1, C)`,
`(13, 7, A)`. The region `(10, 2, A)` lies strictly before the new interval of
`Add(D, 12, 1)` (`10+2-1 < 12`) and is kept unchanged, but it stands after the new
region `(12, 1, D)` in the resulting list, and no region `(12, 1, _)` follows it. -/
theorem Add_frame_before_region_after_new :
    SplicedMemory.AddAll SplicedMemory.empty [(readerA, 10, 10), (readerB, 10, 5), (readerC, 12, 1)]
      = some ⟨[⟨10, 2, readerB⟩, ⟨12, 1, readerC⟩, ⟨13, 2, readerB⟩,
               ⟨10, 2, readerA⟩, ⟨12, 1, readerC⟩, ⟨13, 7, readerA⟩]⟩ ∧
    (10 + 2 - 1 < 12) ∧
    SplicedMemory.Add ⟨[⟨10, 2, readerB⟩, ⟨12, 1, readerC⟩, ⟨13, 2, readerB⟩,
        ⟨10, 2, readerA⟩, ⟨12, 1, readerC⟩, ⟨13, 7, readerA⟩]⟩ readerD 12 1
      = some ⟨[⟨10, 2, readerB⟩, ⟨12, 1, readerD⟩, ⟨13, 2, readerB⟩]
          ++ ⟨10, 2, readerA⟩ :: [⟨13, 7, readerA⟩]⟩ ∧
    (∀ x ∈ [(⟨13, 7, readerA⟩ : readerEntry)], ¬ (x.offset = 12 ∧ x.length = 1)) :=
  ⟨rfl, by decide, rfl, by decide⟩

end proc

namespace commands

/-- What the head loop computes: the lines before the result are equal, the
lines at the result differ unless the result is `n`. -/
theorem headLoop_spec (inp out : List Line) (n : Nat) :
    ∀ (fuel head : Nat), head ≤ n → n ≤ head + fuel →
      head ≤ headLoop inp out n fuel head ∧ headLoop inp out n fuel head ≤ n ∧
      ((∀ i, i < head → inp[i]? = out[i]?) →
        ∀ i, i < headLoop inp out n fuel head → inp[i]? = out[i]?) ∧
      (headLoop inp out n fuel head < n →
        inp[headLoop inp out n fuel head]? ≠ out[headLoop inp out n fuel head]?) := by
  intro fuel
  induction fuel with
  | zero =>
    intro head h1 h2
    have : head = n := by omega
    subst this
    simp [headLoop]
  | succ fuel ih =>
    intro head h1 h2
    rw [headLoop]
    by_cases hlt : head < n
    · by_cases hne : inp[head]? ≠ out[head]?
      · rw [if_pos hlt, if_pos hne]
        exact ⟨le_refl _, h1, fun h => h, fun _ => hne⟩
      · rw [if_pos hlt, if_neg hne]
        obtain ⟨a1, a2, a3, a4⟩ := ih (head + 1) (by omega) (by omega)
        refine ⟨by omega, a2, fun h => a3 (fun i hi => ?_), a4⟩
        rcases Nat.lt_or_ge i head with h' | h'
        · exact h i h'
        · have : i = head := by omega
          subst this
          exact not_not.1 hne
    · rw [if_neg hlt]
      exact ⟨le_refl _, h1, fun h => h, fun h => absurd h hlt⟩

/-- What the tail loop computes: the last lines, as many as the result, are
equal, the lines before them differ unless the result is `n`. -/
theorem tailLoop_spec (inp out : List Line) (n : Nat) :
    ∀ (fuel tail : Nat), tail ≤ n → n ≤ tail + fuel →
      tail ≤ tailLoop inp out n fuel tail ∧ tailLoop inp out n fuel tail ≤ n ∧
      ((∀ j, j < tail → inp[inp.length - j - 1]? = out[out.length - j - 1]?) →
        ∀ j, j < tailLoop inp out n fuel tail →
          inp[inp.length - j - 1]? = out[out.length - j - 1]?) ∧
      (tailLoop inp out n fuel tail < n →
        inp[inp.length - tailLoop inp out n fuel tail - 1]?
          ≠ out[out.length - tailLoop inp out n fuel tail - 1]?) := by
  intro fuel
  induction fuel with
  | zero =>
    intro tail h1 h2
    have : tail = n := by omega
    subst this
    simp [tailLoop]
  | succ fuel ih =>
    intro tail h1 h2
    rw [tailLoop]
    by_cases hlt : tail < n
    · by_cases hne : inp[inp.length - tail - 1]? ≠ out[out.length - tail - 1]?
      · rw [if_pos hlt, if_pos hne]
        exact ⟨le_refl _, h1, fun h => h, fun _ => hne⟩
      · rw [if_pos hlt, if_neg hne]
        obtain ⟨a1, a2, a3, a4⟩ := ih (tail + 1) (by omega) (by omega)
        refine ⟨by omega, a2, fun h => a3 (fun j hj => ?_), a4⟩
        rcases Nat.lt_or_ge j tail with h' | h'
        · exact h j h'
        · have : j = tail := by omega
          subst this
          exact not_not.1 hne
    · rw [if_neg hlt]
      exact ⟨le_refl _, h1, fun h => h, fun h => absurd h hlt⟩


theorem take_eq_of_prefix (inp out : List Line) (a : Nat)
    (h : ∀ i, i < a → inp[i]? = out[i]?) : inp.take a = out.take a := by
  apply List.ext_getElem?
  intro i
  rw [List.getElem?_take, List.getElem?_take]
  split_ifs with hi
  · exact h i hi
  · rfl

theorem drop_eq_of_suffix (inp out : List Line) (t : Nat) (h1 : t ≤ inp.length)
    (h2 : t ≤ out.length)
    (h : ∀ j, j < t → inp[inp.length - j - 1]? = out[out.length - j - 1]?) :
    inp.drop (inp.length - t) = out.drop (out.length - t) := by
  apply List.ext_getElem?
  intro k
  rw [List.getElem?_drop, List.getElem?_drop]
  rcases Nat.lt_or_ge k t with hk | hk
  · have := h (t - 1 - k) (by omega)
    have e1 : inp.length - (t - 1 - k) - 1 = inp.length - t + k := by omega
    have e2 : out.length - (t - 1 - k) - 1 = out.length - t + k := by omega
    rw [e1, e2] at this
    exact this
  · rw [List.getElem?_eq_none (by omega), List.getElem?_eq_none (by omega)]

theorem split_three (out : List Line) (a t : Nat) (h : a + t ≤ out.length) :
    out.take a ++ (out.take (out.length - t)).drop a ++ out.drop (out.length - t) = out := by
  have e : out.take a = (out.take (out.length - t)).take a := by
    rw [List.take_take, Nat.min_eq_left (by omega)]
  rw [e, List.take_append_drop, List.take_append_drop]

/-- The result of `minUpdate` in terms of `head` and `tail`. -/
theorem minUpdate_eq (inp out : List Line) :
    minUpdate inp out =
      if minUpdateHead inp out = inp.length ∧ minUpdateHead inp out = out.length then none
      else some
        ⟨if minUpdateHead inp out = inp.length then -1 else minUpdateHead inp out,
         (inp.length : Int) - minUpdateTail inp out (minUpdateHead inp out),
         decide (minUpdateHead inp out ≠ inp.length), false,
         (out.take (out.length - minUpdateTail inp out (minUpdateHead inp out))).drop
           (minUpdateHead inp out)⟩ := by
  unfold minUpdate
  simp only []
  split_ifs <;> simp_all

/-- C29: for all line lists `in` and `out`, with `head` and `tail` as `minUpdate`
computes them: `head` is the length of the common prefix and `tail` the length
of the common suffix outside that prefix (the lines before `head` and the last
`tail` lines are equal, the next line on either side differs unless the shorter
list is used up), `head + tail <= min(len(in), len(out))`,
`in[0:head] ++ out[head : len(out)-tail] ++ in[len(in)-tail:]` equals `out`,
`minUpdate` issues no buffer update exactly when `in` equals `out`, and
otherwise it issues the update of the lines from `head` (`-1`, exclusive, when
`head == len(in)`) to `len(in)-tail` with `out[head : len(out)-tail]`. -/
theorem minUpdate_patch (inp out : List Line) :
    minUpdateHead inp out + minUpdateTail inp out (minUpdateHead inp out)
      ≤ min inp.length out.length ∧
    (∀ i, i < minUpdateHead inp out → inp[i]? = out[i]?) ∧
    (minUpdateHead inp out < min inp.length out.length →
      inp[minUpdateHead inp out]? ≠ out[minUpdateHead inp out]?) ∧
    (∀ j, j < minUpdateTail inp out (minUpdateHead inp out) →
      inp[inp.length - j - 1]? = out[out.length - j - 1]?) ∧
    (minUpdateHead inp out + minUpdateTail inp out (minUpdateHead inp out)
        < min inp.length out.length →
      inp[inp.length - minUpdateTail inp out (minUpdateHead inp out) - 1]?
        ≠ out[out.length - minUpdateTail inp out (minUpdateHead inp out) - 1]?) ∧
    inp.take (minUpdateHead inp out)
        ++ (out.take (out.length - minUpdateTail inp out (minUpdateHead inp out))).drop
            (minUpdateHead inp out)
        ++ inp.drop (inp.length - minUpdateTail inp out (minUpdateHead inp out)) = out ∧
    (minUpdate inp out = none ↔ inp = out) ∧
    (inp ≠ out → minUpdate inp out = some
      ⟨if minUpdateHead inp out = inp.length then -1 else minUpdateHead inp out,
       (inp.length : Int) - minUpdateTail inp out (minUpdateHead inp out),
       decide (minUpdateHead inp out ≠ inp.length), false,
       (out.take (out.length - minUpdateTail inp out (minUpdateHead inp out))).drop
         (minUpdateHead inp out)⟩) := by
  have hmin : (if inp.length < out.length then inp.length else out.length)
      = min inp.length out.length := by
    split_ifs <;> omega
  rw [minUpdate_eq]
  obtain ⟨_, a2, a3, a4⟩ := headLoop_spec inp out (min inp.length out.length)
    (min inp.length out.length) 0 (Nat.zero_le _) (by omega)
  have hhead : minUpdateHead inp out
      = headLoop inp out (min inp.length out.length) (min inp.length out.length) 0 := by
    unfold minUpdateHead
    simp only [hmin]
  rw [← hhead] at a2 a3 a4
  have a3' := a3 (fun i hi => absurd hi (Nat.not_lt_zero i))
  generalize minUpdateHead inp out = head at *
  obtain ⟨_, b2, b3, b4⟩ := tailLoop_spec inp out (min inp.length out.length - head)
    (min inp.length out.length - head) 0 (Nat.zero_le _) (by omega)
  have htail : minUpdateTail inp out head
      = tailLoop inp out (min inp.length out.length - head)
          (min inp.length out.length - head) 0 := by
    unfold minUpdateTail
    simp only [hmin]
  rw [← htail] at b2 b3 b4
  have b3' := b3 (fun j hj => absurd hj (Nat.not_lt_zero j))
  generalize minUpdateTail inp out head = tail at *
  have hle1 : min inp.length out.length ≤ inp.length := Nat.min_le_left _ _
  have hle2 : min inp.length out.length ≤ out.length := Nat.min_le_right _ _
  have hpre := take_eq_of_prefix inp out head a3'
  have hsuf := drop_eq_of_suffix inp out tail (by omega) (by omega) b3'
  have hiff : (head = inp.length ∧ head = out.length) ↔ inp = out := by
    constructor
    · intro h
      have h1 := hpre
      rw [h.1] at h1
      rw [List.take_length] at h1
      rw [h1, ← h.1, h.2, List.take_length]
    · intro h
      subst h
      by_contra hc
      have hlt : head < min inp.length inp.length := by
        rw [Nat.min_self] at a2 ⊢
        omega
      exact a4 hlt rfl
  refine ⟨by omega, a3', a4, b3', fun h => b4 (by omega), ?_, ?_, ?_⟩
  · rw [hpre, hsuf]
    exact split_three out head tail (by omega)
  · rw [← hiff]
    split_ifs with h
    · exact ⟨fun _ => h, fun _ => rfl⟩
    · exact ⟨fun h' => absurd h' (by simp), fun h' => absurd h' h⟩
  · intro hne
    rw [if_neg (fun h => hne (hiff.1 h))]

end commands
